import Mathlib

/-!
# SilvrShell: the tokenizer and the read-parse-dispatch loop of `src/shell.cpp`

A shallow embedding of `parse_line` (a pointer walk over a NUL-terminated
buffer that writes terminators in place and stores token pointers in `argv`)
and of `main` (as a transition system over the program points of the loop),
followed by the properties proved about them.
-/

namespace SilvrShell

/-! ## Memory model for `parse_line` -/

/-- The constant `#define MAX_ARGS 128` (shell.cpp:20). -/
def MAX_ARGS : Nat := 128

/-- The constant `#define PROMPT_BUF 4096` (shell.cpp:21). -/
def PROMPT_BUF : Nat := 4096

/-- The terminator byte of a C string. -/
def NUL : Char := Char.ofNat 0

/-- Reading `line[p]`. The list holds the bytes `getline` stored; the byte
after them is the terminator `getline` always appends, so a read at or past
the end of the list yields `NUL`. -/
def deref (line : List Char) (p : Nat) : Char := line.getD p NUL

/-- The function `strlen`: the number of bytes before the first `NUL`. -/
def strlen (line : List Char) : Nat := (line.takeWhile (fun c => c != NUL)).length

/-- The C string that starts at `line + p`: the bytes from `p` up to the first
`NUL`. -/
def c_str (line : List Char) (p : Nat) : List Char :=
  (line.drop p).takeWhile (fun c => c != NUL)

/-- The array `char *argv[MAX_ARGS]`: slot `i` holds `none` for `NULL` and
`some p` for the pointer `line + p`. Only slots below `MAX_ARGS` belong to the
array. -/
abbrev Argv := Nat → Option Nat

/-- The store `argv[i] = v`. A store outside the `MAX_ARGS` slots of the array
is a memory fault, reported as `none`. -/
def argv_store (argv : Argv) (i : Nat) (v : Option Nat) : Option Argv :=
  if i < MAX_ARGS then some (fun j => if j = i then v else argv j) else none

/-- The loop `while (*p == ' ' || *p == '\t') p++;` (shell.cpp:46 and 57). The first
argument bounds the number of iterations; running out is reported as `none`. -/
def skip_blanks : Nat → List Char → Nat → Option Nat
  | 0, _, _ => none
  | fuel + 1, line, p =>
    if deref line p = ' ' ∨ deref line p = '\t' then skip_blanks fuel line (p + 1)
    else some p

/-- The loop `while (*p && *p != ' ' && *p != '\t') p++;` (shell.cpp:54). The first
argument bounds the number of iterations; running out is reported as `none`. -/
def scan_token : Nat → List Char → Nat → Option Nat
  | 0, _, _ => none
  | fuel + 1, line, p =>
    if deref line p ≠ NUL ∧ deref line p ≠ ' ' ∧ deref line p ≠ '\t' then
      scan_token fuel line (p + 1)
    else some p

/-- The local variables of `parse_line` that the split loop reads and writes,
together with the two memory areas it writes to. -/
structure ParseState where
  line : List Char
  argv : Argv
  p : Nat
  n : Nat

/-- The split loop of `parse_line` (shell.cpp:50-58). The result is the state
at loop exit (through the loop condition or through `break`). The first
argument bounds the number of iterations; running out, like a store outside
`argv`, is reported as `none`. -/
def split_loop : Nat → ParseState → Option ParseState
  | 0, _ => none
  | fuel + 1, s =>
    -- while (*p && n < MAX_ARGS - 1)
    if deref s.line s.p ≠ NUL ∧ s.n < MAX_ARGS - 1 then
      -- argv[n++] = p;
      match argv_store s.argv s.n (some s.p) with
      | none => none
      | some argv =>
        -- while (*p && *p != ' ' && *p != '\t') p++;
        match scan_token (s.line.length + 1) s.line s.p with
        | none => none
        | some q =>
          -- if (!*p) break;
          if deref s.line q = NUL then
            some { line := s.line, argv := argv, p := q, n := s.n + 1 }
          else
            -- *p++ = '\0';
            let line := s.line.set q NUL
            -- while (*p == ' ' || *p == '\t') p++;
            match skip_blanks (line.length + 1) line (q + 1) with
            | none => none
            | some r => split_loop fuel { line := line, argv := argv, p := r, n := s.n + 1 }
    else some s

/-- What `parse_line` leaves behind: the returned count and the contents of the
line buffer and of `argv` after the call. -/
structure ParseResult where
  argc : Nat
  line : List Char
  argv : Argv

/-- The function `parse_line` (shell.cpp:38-61). `none` stands for a run that
faults (a store outside `argv`) or exceeds the iteration bound. -/
def parse_line (line : List Char) (argv : Argv) : Option ParseResult :=
  -- size_t len = strlen(line);
  let len := strlen line
  -- if (len && line[len-1] == '\n') line[len-1] = '\0';
  let line := if len ≠ 0 ∧ deref line (len - 1) = '\n' then line.set (len - 1) NUL else line
  -- char *p = line; while (*p == ' ' || *p == '\t') p++;
  match skip_blanks (line.length + 1) line 0 with
  | none => none
  | some p =>
    -- if (*p == '\0') return 0;
    if deref line p = NUL then some { argc := 0, line := line, argv := argv }
    else
      match split_loop (line.length + 1) { line := line, argv := argv, p := p, n := 0 } with
      | none => none
      | some s =>
        -- argv[n] = NULL; return n;
        match argv_store s.argv s.n none with
        | none => none
        | some argv => some { argc := s.n, line := s.line, argv := argv }

/-- The strings the caller sees through the first `n` slots of `argv`; `none`
for a slot that holds `NULL`. -/
def argv_strings (line : List Char) (argv : Argv) (n : Nat) : List (Option (List Char)) :=
  (List.range n).map (fun i => (argv i).map (c_str line))

/-! ## The tokenizer as the specification words it -/

/-- The delimiters of the tokenizer: space and tab. -/
def is_blank (c : Char) : Bool := c == ' ' || c == '\t'

/-- Removing one trailing newline, when there is one. -/
def strip_newline (s : List Char) : List Char :=
  if s.getLast? = some '\n' then s.dropLast else s

/-- The text of an input line: the C string in the buffer, without its
trailing newline. -/
def line_text (line : List Char) : List Char := strip_newline (c_str line 0)

/-- The maximal runs of non-delimiter characters of a text, in order: the
pieces between delimiters, the empty pieces left out. -/
def runs (s : List Char) : List (List Char) :=
  (s.splitOnP is_blank).filter (fun t => !t.isEmpty)

/-- A text laid out as tokens, each followed by its gap:
`t1 ++ g1 ++ t2 ++ g2 ++ ...`. -/
def weave : List (List Char) → List (List Char) → List Char
  | t :: ts, g :: gs => t ++ g ++ weave ts gs
  | _, _ => []

/-! ## The interpreter process and its environment -/

/-- The disposition of the interrupt signal in a process. -/
inductive Disposition
  /-- The platform default: delivery terminates the process. -/
  | SIG_DFL
  /-- Delivery is discarded. -/
  | SIG_IGN
  /-- Delivery runs the handler `on_sigint` of shell.cpp:23-26. -/
  | handler_on_sigint
  deriving DecidableEq, Repr

/-- The termination status `waitpid` stores. -/
inductive Status
  | exited (code : Nat)
  | signaled (sig : Nat)
  deriving DecidableEq, Repr

/-- The three ways a call `waitpid(pid, &status, 0)` comes back. -/
inductive WaitResult
  /-- A negative return with `errno == EINTR`. -/
  | EINTR
  /-- A negative return with any other `errno`. For `waitpid(pid, &status, 0)`
  that is `ECHILD`: the kernel holds no child `pid` of the caller any more. -/
  | failed
  /-- The child was reaped and its status stored. -/
  | reaped (st : Status)
  deriving DecidableEq, Repr

/-- The state of a process that `fork` duplicates and that the program touches:
working directory, the value of `HOME`, and the disposition of SIGINT. -/
structure Proc where
  cwd : List Char
  home : Option (List Char)
  sigint : Disposition
  deriving DecidableEq, Repr

/-- What a child does from `fork` to the end of its own code (shell.cpp:104-110). -/
structure ChildRun where
  /-- The process state at the call of `execvp`. -/
  proc : Proc
  /-- The program name handed to `execvp`, that is `argv[0]`. -/
  file : List Char
  /-- The argument vector handed to `execvp`. -/
  args : List (List Char)
  /-- Whether `execvp` replaced the image. -/
  replaced : Bool
  /-- The message of `perror` when it did not. -/
  report : Option (List Char)
  /-- The argument of `_exit` when it did not. -/
  exit_code : Option Nat
  deriving DecidableEq, Repr

/-- The actions of the interpreter (and of its children up to `execvp`) that the
outside can observe, in the order they happen. -/
inductive Act
  /-- The call `sigaction(SIGINT, &sa, NULL)` with `sa.sa_handler = on_sigint`. -/
  | sigaction_sigint
  /-- Bytes written to standard output. -/
  | stdout (s : List Char)
  /-- A call `perror(s)`. -/
  | perror (s : List Char)
  /-- A call `chdir(dir)` and whether it returned 0. -/
  | chdir (dir : List Char) (ok : Bool)
  /-- A call `fork()`: the pid of the child, or `none` for a negative return. -/
  | fork (pid : Option Nat)
  /-- The run of the child with this pid. -/
  | child (pid : Nat) (c : ChildRun)
  /-- A call `waitpid(pid, &status, 0)` and how it came back. -/
  | waitpid (pid : Nat) (r : WaitResult)
  deriving DecidableEq, Repr

/-- The answers of the operating system to the calls one dispatch may make. -/
structure Os where
  /-- The new working directory when `chdir` succeeds, `none` when it fails. -/
  chdir : Option (List Char)
  /-- The pid `fork` returns in the parent, `none` when it fails. -/
  fork : Option Nat
  /-- Whether `execvp` in the child finds and starts the program. -/
  exec_ok : Bool

/-- The program points of `main` at which the interpreter waits for its
environment, and the two ways it ends. -/
inductive Ctl
  /-- At `print_prompt()` (shell.cpp:75). -/
  | PROMPT
  /-- At `getline` (shell.cpp:76). -/
  | READ
  /-- In the parent at `waitpid(pid, ...)` (shell.cpp:113). -/
  | WAIT (pid : Nat)
  /-- After `return` from `main` with this exit code. -/
  | TERMINATED (code : Nat)
  /-- Terminated by the interrupt signal. -/
  | KILLED
  deriving DecidableEq, Repr

/-- The state of a session. -/
structure State where
  ctl : Ctl
  proc : Proc
  /-- The children of the interpreter that the kernel still holds, running or
  terminated and not yet reaped, latest first. -/
  children : List Nat
  trace : List Act
  deriving DecidableEq, Repr

/-- What the environment does to the interpreter between two program points. -/
inductive Event
  /-- The call `getcwd` inside `print_prompt` returns; `ok` is false when it
  reports an error of its own. -/
  | getcwd (ok : Bool)
  /-- The call `getline` returns: `none` for a negative return (end of stream or
  error), otherwise the bytes read. `stack` is the indeterminate content of the
  fresh array `argv`; `os` answers the calls of the dispatch that follows. -/
  | line (got : Option (List Char)) (stack : Argv) (os : Os)
  /-- The call `waitpid` returns. -/
  | wait (r : WaitResult)
  /-- The interrupt signal is delivered to the interpreter. -/
  | sigint

/-- The handler `on_sigint` (shell.cpp:23-26): `write(STDOUT_FILENO, "\n", 1)`. -/
def on_sigint : List Act := [Act.stdout ['\n']]

/-- The function `print_prompt` (shell.cpp:29-36). `getcwd` fails when the
system says so or when the path and its terminator do not fit `PROMPT_BUF`. -/
def print_prompt (p : Proc) (getcwd_ok : Bool) : List Act :=
  -- if (getcwd(cwd, sizeof(cwd)) == NULL) strcpy(cwd, "?");
  let cwd := if getcwd_ok = true ∧ p.cwd.length < PROMPT_BUF then p.cwd else ['?']
  -- printf("%s> ", cwd); fflush(stdout);
  [Act.stdout (cwd ++ ['>', ' '])]

/-- The argument vector `execvp` reads through `argv`: the strings of the slots
from `i` up to the first `NULL`. The first argument bounds the walk. -/
def exec_args : Nat → List Char → Argv → Nat → List (List Char)
  | 0, _, _, _ => []
  | fuel + 1, line, argv, i =>
    match argv i with
    | none => []
    | some q => c_str line q :: exec_args fuel line argv (i + 1)

/-- The code of the child (shell.cpp:104-110). -/
def child_main (parent : Proc) (file : List Char) (args : List (List Char))
    (exec_ok : Bool) : ChildRun :=
  -- signal(SIGINT, SIG_DFL);
  let proc := { parent with sigint := Disposition.SIG_DFL }
  -- execvp(argv[0], argv);
  if exec_ok then
    { proc := proc, file := file, args := args, replaced := true, report := none,
      exit_code := none }
  else
    -- perror("exec"); _exit(127);
    { proc := proc, file := file, args := args, replaced := false,
      report := some "exec".toList, exit_code := some 127 }

/-- The start of `main` (shell.cpp:63-72), run by a process whose inherited
state is `inherited`: the handler is installed and the loop is entered. -/
def main_init (inherited : Proc) : State :=
  -- sa.sa_handler = on_sigint; sa.sa_flags = SA_RESTART; sigaction(SIGINT, &sa, NULL);
  { ctl := Ctl.PROMPT
    proc := { inherited with sigint := Disposition.handler_on_sigint }
    children := []
    trace := [Act.sigaction_sigint] }

/-- The body of the loop from the return of `getline` to the next program
point (shell.cpp:77-112). `none` stands for a fault. -/
def dispatch (s : State) (got : Option (List Char)) (stack : Argv) (os : Os) : Option State :=
  match got with
  | none =>
    -- if (got < 0) { printf("\n"); break; }  ...  free(line); return 0;
    some { s with trace := s.trace ++ [Act.stdout ['\n']], ctl := Ctl.TERMINATED 0 }
  | some line =>
    -- int argc = parse_line(line, argv);
    match parse_line line stack with
    | none => none
    | some res =>
      -- if (argc == 0) continue;
      if res.argc = 0 then some { s with ctl := Ctl.PROMPT }
      else
        match res.argv 0 with
        | none => none
        | some q0 =>
          -- if (strcmp(argv[0], "exit") == 0) break;  ...  free(line); return 0;
          if c_str res.line q0 = "exit".toList then some { s with ctl := Ctl.TERMINATED 0 }
          -- if (strcmp(argv[0], "cd") == 0)
          else if c_str res.line q0 = "cd".toList then
            -- const char *dir = (argc > 1) ? argv[1] : getenv("HOME");
            let dir : Option (List Char) :=
              if res.argc > 1 then (res.argv 1).map (c_str res.line) else s.proc.home
            -- if (!dir) dir = ".";
            let dir : List Char := dir.getD ['.']
            -- if (chdir(dir) != 0) perror("cd"); continue;
            match os.chdir with
            | some cwd =>
              some { s with proc := { s.proc with cwd := cwd },
                            trace := s.trace ++ [Act.chdir dir true], ctl := Ctl.PROMPT }
            | none =>
              some { s with trace := s.trace ++ [Act.chdir dir false, Act.perror "cd".toList],
                            ctl := Ctl.PROMPT }
          else
            -- pid_t pid = fork();
            match os.fork with
            | none =>
              -- if (pid < 0) { perror("fork"); continue; }
              some { s with trace := s.trace ++ [Act.fork none, Act.perror "fork".toList],
                            ctl := Ctl.PROMPT }
            | some pid =>
              -- the child runs shell.cpp:104-110, the parent goes to waitpid
              some { s with
                trace := s.trace ++ [Act.fork (some pid),
                  Act.child pid (child_main s.proc (c_str res.line q0)
                    (exec_args MAX_ARGS res.line res.argv 0) os.exec_ok)],
                children := pid :: s.children,
                ctl := Ctl.WAIT pid }

/-- The loop `while (waitpid(pid, &status, 0) < 0)` of shell.cpp:113-117, one
return of `waitpid` at a time. -/
def wait_step (s : State) (pid : Nat) (r : WaitResult) : State :=
  match r with
  | WaitResult.EINTR =>
    -- if (errno == EINTR) continue;
    { s with trace := s.trace ++ [Act.waitpid pid WaitResult.EINTR] }
  | WaitResult.failed =>
    -- perror("waitpid"); break;
    { s with trace := s.trace ++ [Act.waitpid pid WaitResult.failed, Act.perror "waitpid".toList],
             children := s.children.erase pid, ctl := Ctl.PROMPT }
  | WaitResult.reaped st =>
    { s with trace := s.trace ++ [Act.waitpid pid (WaitResult.reaped st)],
             children := s.children.erase pid, ctl := Ctl.PROMPT }

/-- Delivery of the interrupt signal to the interpreter, by its disposition. -/
def deliver_sigint (s : State) : State :=
  match s.proc.sigint with
  | Disposition.SIG_DFL => { s with ctl := Ctl.KILLED }
  | Disposition.SIG_IGN => s
  | Disposition.handler_on_sigint => { s with trace := s.trace ++ on_sigint }

/-- One transition of `main`. `none`: the event cannot happen at this program
point, or the step faults. -/
def main_step (s : State) (e : Event) : Option State :=
  match s.ctl, e with
  | Ctl.PROMPT, Event.getcwd ok =>
    some { s with trace := s.trace ++ print_prompt s.proc ok, ctl := Ctl.READ }
  | Ctl.READ, Event.line got stack os => dispatch s got stack os
  | Ctl.WAIT pid, Event.wait r => some (wait_step s pid r)
  | Ctl.PROMPT, Event.sigint => some (deliver_sigint s)
  | Ctl.READ, Event.sigint => some (deliver_sigint s)
  | Ctl.WAIT _, Event.sigint => some (deliver_sigint s)
  | _, _ => none

/-- The transitions of `main` along a sequence of events. -/
def main_run (s : State) : List Event → Option State
  | [] => some s
  | e :: es =>
    match main_step s e with
    | none => none
    | some t => main_run t es

/-- The bytes written to standard output along a trace, one entry per write. -/
def stdout_of (trace : List Act) : List (List Char) :=
  trace.filterMap (fun a => match a with | Act.stdout w => some w | _ => none)

/-- The state of the example session after the prompt and the line `ls`: the
child 7 was created and the driver is at `waitpid`. -/
def state_waiting : State :=
  { ctl := Ctl.WAIT 7
    proc := { cwd := "/tmp".toList, home := some "/home/u".toList,
              sigint := Disposition.handler_on_sigint }
    children := [7]
    trace := [Act.sigaction_sigint, Act.stdout "/tmp> ".toList, Act.fork (some 7),
      Act.child 7 { proc := { cwd := "/tmp".toList, home := some "/home/u".toList,
                              sigint := Disposition.SIG_DFL },
                    file := "ls".toList, args := ["ls".toList], replaced := true,
                    report := none, exit_code := none }] }

/-- The directory the specification names for `cd`: the token after `cd` when
there is one, otherwise the value of `HOME` when it is set, otherwise `.`;
`rest` holds the tokens after `cd`. -/
def cd_target (rest : List (List Char)) (home : Option (List Char)) : List Char :=
  match rest.head? with
  | some d => d
  | none => home.getD ['.']

/-- The dispatch of `main` read off the token sequence of the line rather than
off `argv`; `dispatch` is proved equal to it. -/
def dispatch_tokens (s : State) (toks : List (List Char)) (os : Os) : State :=
  match toks with
  | [] => { s with ctl := Ctl.PROMPT }
  | t0 :: rest =>
    if t0 = "exit".toList then { s with ctl := Ctl.TERMINATED 0 }
    else if t0 = "cd".toList then
      match os.chdir with
      | some cwd =>
        { s with proc := { s.proc with cwd := cwd },
                 trace := s.trace ++ [Act.chdir (cd_target rest s.proc.home) true],
                 ctl := Ctl.PROMPT }
      | none =>
        { s with trace := s.trace ++
                   [Act.chdir (cd_target rest s.proc.home) false, Act.perror "cd".toList],
                 ctl := Ctl.PROMPT }
    else
      match os.fork with
      | none =>
        { s with trace := s.trace ++ [Act.fork none, Act.perror "fork".toList],
                 ctl := Ctl.PROMPT }
      | some pid =>
        { s with
          trace := s.trace ++ [Act.fork (some pid),
            Act.child pid (child_main s.proc t0 ((t0 :: rest).take (MAX_ARGS - 1)) os.exec_ok)],
          children := pid :: s.children,
          ctl := Ctl.WAIT pid }

/-- The invariant of a session: the handler stays installed, the session is
not killed, it only ever returns 0, `sigaction` was called once, every child
called `execvp` with the default disposition, and the only child there is at
any time is the one the driver is waiting for. -/
def session_inv (s : State) : Prop :=
  s.proc.sigint = Disposition.handler_on_sigint ∧
  s.ctl ≠ Ctl.KILLED ∧
  (∀ c, s.ctl = Ctl.TERMINATED c → c = 0) ∧
  s.trace.count Act.sigaction_sigint = 1 ∧
  (∀ pid c, Act.child pid c ∈ s.trace → c.proc.sigint = Disposition.SIG_DFL) ∧
  (∀ pid, s.ctl = Ctl.WAIT pid → s.children = [pid]) ∧
  ((∀ pid, s.ctl ≠ Ctl.WAIT pid) → s.children = [])

/-- An arbitrary initial content of the uninitialised array `argv`. -/
def junk : Argv := fun i => some i

/-- A process state to start sessions from in examples. -/
def proc0 : Proc := { cwd := "/tmp".toList, home := some "/home/u".toList,
                      sigint := Disposition.SIG_DFL }

/-- Answers of the operating system for examples: `chdir` fails, `fork` gives
pid 7, `execvp` succeeds. -/
def os0 : Os := { chdir := none, fork := some 7, exec_ok := true }

/-! ## Lemmas on the memory model -/

theorem deref_nil (p : Nat) : deref [] p = NUL := by
  simp [deref]

theorem deref_cons_zero (c : Char) (l : List Char) : deref (c :: l) 0 = c := by
  simp [deref]

theorem deref_append (pre rest : List Char) :
    deref (pre ++ rest) pre.length = deref rest 0 := by
  unfold deref
  rw [List.getD_append_right _ _ _ _ (Nat.le_refl _)]
  simp

theorem is_blank_iff (c : Char) : is_blank c = true ↔ (c = ' ' ∨ c = '\t') := by
  simp [is_blank]

theorem c_str_append (pre t rest : List Char) (ht : ∀ c ∈ t, c ≠ NUL)
    (hrest : deref rest 0 = NUL) :
    c_str (pre ++ (t ++ rest)) pre.length = t := by
  unfold c_str
  rw [List.drop_left]
  induction t with
  | nil =>
    cases rest with
    | nil => simp
    | cons c rest =>
      rw [deref_cons_zero] at hrest
      simp [hrest]
  | cons c t ih =>
    have hc : c ≠ NUL := ht c (List.mem_cons_self _ _)
    have ih2 := ih (fun d hd => ht d (List.mem_cons_of_mem _ hd))
    simp [List.takeWhile_cons, hc, ih2]

theorem skip_blanks_spec (bl rest : List Char) :
    ∀ (fuel : Nat) (pre : List Char), (∀ c ∈ bl, is_blank c = true) →
      ¬ is_blank (deref rest 0) = true → bl.length < fuel →
      skip_blanks fuel (pre ++ (bl ++ rest)) pre.length = some (pre.length + bl.length) := by
  induction bl with
  | nil =>
    intro fuel pre _ hrest hfuel
    obtain ⟨f, rfl⟩ : ∃ f, fuel = f + 1 := ⟨fuel - 1, by simp at hfuel; omega⟩
    have h := deref_append pre rest
    simp only [List.nil_append]
    unfold skip_blanks
    rw [h, if_neg (fun hc => hrest ((is_blank_iff _).2 hc))]
    rfl
  | cons b bl ih =>
    intro fuel pre hbl hrest hfuel
    obtain ⟨f, rfl⟩ : ∃ f, fuel = f + 1 := ⟨fuel - 1, by simp at hfuel; omega⟩
    have hb : is_blank b = true := hbl b (List.mem_cons_self _ _)
    have h := deref_append pre (b :: bl ++ rest)
    simp only [List.cons_append] at h
    rw [deref_cons_zero] at h
    unfold skip_blanks
    simp only [List.cons_append]
    rw [h, if_pos ((is_blank_iff _).1 hb)]
    have ih2 := ih f (pre ++ [b]) (fun d hd => hbl d (List.mem_cons_of_mem _ hd)) hrest
      (by simp at hfuel; omega)
    simp only [List.append_assoc, List.singleton_append, List.length_append,
      List.length_singleton] at ih2
    rw [ih2]
    simp only [List.length_cons]
    congr 1
    omega

theorem scan_token_spec (t rest : List Char) :
    ∀ (fuel : Nat) (pre : List Char), (∀ c ∈ t, c ≠ NUL ∧ ¬ is_blank c = true) →
      (deref rest 0 = NUL ∨ is_blank (deref rest 0) = true) → t.length < fuel →
      scan_token fuel (pre ++ (t ++ rest)) pre.length = some (pre.length + t.length) := by
  induction t with
  | nil =>
    intro fuel pre _ hrest hfuel
    obtain ⟨f, rfl⟩ : ∃ f, fuel = f + 1 := ⟨fuel - 1, by simp at hfuel; omega⟩
    have h := deref_append pre rest
    simp only [List.nil_append]
    unfold scan_token
    rw [h]
    have : ¬ (deref rest 0 ≠ NUL ∧ deref rest 0 ≠ ' ' ∧ deref rest 0 ≠ '\t') := by
      rintro ⟨h1, h2, h3⟩
      rcases hrest with h0 | hb
      · exact h1 h0
      · rcases (is_blank_iff _).1 hb with hb | hb
        · exact h2 hb
        · exact h3 hb
    rw [if_neg this]
    rfl
  | cons c t ih =>
    intro fuel pre ht hrest hfuel
    obtain ⟨f, rfl⟩ : ∃ f, fuel = f + 1 := ⟨fuel - 1, by simp at hfuel; omega⟩
    have hc := ht c (List.mem_cons_self _ _)
    have h := deref_append pre (c :: t ++ rest)
    simp only [List.cons_append] at h
    rw [deref_cons_zero] at h
    unfold scan_token
    simp only [List.cons_append]
    rw [h]
    have hcb : c ≠ ' ' ∧ c ≠ '\t' :=
      ⟨fun e => hc.2 ((is_blank_iff _).2 (Or.inl e)), fun e => hc.2 ((is_blank_iff _).2 (Or.inr e))⟩
    rw [if_pos ⟨hc.1, hcb.1, hcb.2⟩]
    have ih2 := ih f (pre ++ [c]) (fun d hd => ht d (List.mem_cons_of_mem _ hd)) hrest
      (by simp at hfuel; omega)
    simp only [List.append_assoc, List.singleton_append, List.length_append,
      List.length_singleton] at ih2
    rw [ih2]
    simp only [List.length_cons]
    congr 1
    omega

theorem set_append_cons (a : List Char) (b x : Char) (c : List Char) :
    (a ++ b :: c).set a.length x = a ++ x :: c := by
  induction a with
  | nil => rfl
  | cons d a ih => simp [ih]

/-! ## Lemmas on `runs` -/

theorem runs_nil : runs [] = [] := by
  simp [runs, List.splitOnP_nil]

theorem runs_blank_cons (b : Char) (s : List Char) (hb : is_blank b = true) :
    runs (b :: s) = runs s := by
  simp [runs, List.splitOnP_cons, hb]

theorem runs_blanks_append (bl s : List Char) (hbl : ∀ c ∈ bl, is_blank c = true) :
    runs (bl ++ s) = runs s := by
  induction bl with
  | nil => rfl
  | cons b bl ih =>
    rw [List.cons_append, runs_blank_cons _ _ (hbl b (List.mem_cons_self _ _))]
    exact ih (fun d hd => hbl d (List.mem_cons_of_mem _ hd))

theorem runs_token (t : List Char) (hne : t ≠ []) (ht : ∀ c ∈ t, ¬ is_blank c = true) :
    runs t = [t] := by
  unfold runs
  rw [List.splitOnP_eq_single _ _ ht]
  cases t with
  | nil => exact absurd rfl hne
  | cons c t => simp

theorem runs_token_cons (t : List Char) (b : Char) (s : List Char) (hne : t ≠ [])
    (ht : ∀ c ∈ t, ¬ is_blank c = true) (hb : is_blank b = true) :
    runs (t ++ b :: s) = t :: runs s := by
  unfold runs
  rw [List.splitOnP_first _ _ ht _ hb]
  cases t with
  | nil => exact absurd rfl hne
  | cons c t => simp

/-- A text that starts with a non-delimiter is one token, alone or followed by
a delimiter, a run of delimiters and a rest that starts with a non-delimiter. -/
theorem token_decomp (r : List Char) (hne : r ≠ []) (hhead : ¬ is_blank (deref r 0) = true) :
    ∃ t, t ≠ [] ∧ (∀ c ∈ t, ¬ is_blank c = true) ∧
      (r = t ∨ ∃ b bl r3, r = t ++ b :: (bl ++ r3) ∧ is_blank b = true ∧
        (∀ c ∈ bl, is_blank c = true) ∧ ¬ is_blank (deref r3 0) = true) := by
  refine ⟨r.takeWhile (fun c => !is_blank c), ?_, ?_, ?_⟩
  · cases r with
    | nil => exact absurd rfl hne
    | cons c r =>
      rw [deref_cons_zero] at hhead
      simp [List.takeWhile_cons, hhead]
  · intro c hc
    have := List.mem_takeWhile_imp hc
    simpa using this
  · have hsplit := List.takeWhile_append_dropWhile (fun c => !is_blank c) r
    cases h1 : r.dropWhile (fun c => !is_blank c) with
    | nil =>
      left
      rw [h1, List.append_nil] at hsplit
      exact hsplit.symm
    | cons b r2 =>
      right
      refine ⟨b, r2.takeWhile is_blank, r2.dropWhile is_blank, ?_, ?_, ?_, ?_⟩
      · rw [List.takeWhile_append_dropWhile, ← h1, hsplit]
      · have := List.head_dropWhile_not (fun c => !is_blank c) r
          (by rw [h1]; exact List.cons_ne_nil _ _)
        simp only [h1, List.head_cons] at this
        simpa using this
      · intro c hc
        exact List.mem_takeWhile_imp hc
      · cases h2 : r2.dropWhile is_blank with
        | nil => rw [deref_nil]; decide
        | cons d r4 =>
          rw [deref_cons_zero]
          have := List.head_dropWhile_not is_blank r2 (by rw [h2]; exact List.cons_ne_nil _ _)
          simp only [h2, List.head_cons] at this
          simpa using this

/-! ## One iteration of the split loop -/

theorem argv_store_some (argv : Argv) (i : Nat) (v : Option Nat) (hi : i < MAX_ARGS) :
    argv_store argv i v = some (fun j => if j = i then v else argv j) := by
  unfold argv_store
  rw [if_pos hi]

theorem split_loop_exit (fuel : Nat) (s : ParseState)
    (h : ¬ (deref s.line s.p ≠ NUL ∧ s.n < MAX_ARGS - 1)) :
    split_loop (fuel + 1) s = some s := by
  unfold split_loop
  rw [if_neg h]

theorem split_loop_break (fuel : Nat) (pre t post : List Char) (argv : Argv) (n : Nat)
    (hne : t ≠ []) (ht : ∀ c ∈ t, c ≠ NUL ∧ ¬ is_blank c = true)
    (hpost : deref post 0 = NUL) (hn : n < MAX_ARGS - 1) :
    split_loop (fuel + 1) { line := pre ++ (t ++ post), argv := argv, p := pre.length, n := n } =
      some { line := pre ++ (t ++ post), argv := fun j => if j = n then some pre.length else argv j,
             p := pre.length + t.length, n := n + 1 } := by
  have hd : deref (pre ++ (t ++ post)) pre.length ≠ NUL := by
    rw [deref_append]
    cases t with
    | nil => exact absurd rfl hne
    | cons c t =>
      rw [List.cons_append, deref_cons_zero]
      exact (ht c (List.mem_cons_self _ _)).1
  have hscan := scan_token_spec t post ((pre ++ (t ++ post)).length + 1) pre ht (Or.inl hpost)
    (by simp; omega)
  have hq : deref (pre ++ (t ++ post)) (pre.length + t.length) = NUL := by
    have := deref_append (pre ++ t) post
    rw [List.append_assoc, List.length_append] at this
    rw [this, hpost]
  unfold split_loop
  simp only []
  rw [if_pos ⟨hd, hn⟩, argv_store_some _ _ _ (by unfold MAX_ARGS at *; omega)]
  simp only []
  rw [hscan]
  simp only []
  rw [if_pos hq]

theorem split_loop_continue (fuel : Nat) (pre t : List Char) (b : Char) (bl rest : List Char)
    (argv : Argv) (n : Nat)
    (hne : t ≠ []) (ht : ∀ c ∈ t, c ≠ NUL ∧ ¬ is_blank c = true)
    (hb : is_blank b = true) (hb0 : b ≠ NUL) (hbl : ∀ c ∈ bl, is_blank c = true)
    (hrest : ¬ is_blank (deref rest 0) = true) (hn : n < MAX_ARGS - 1) :
    split_loop (fuel + 1)
        { line := pre ++ (t ++ b :: (bl ++ rest)), argv := argv, p := pre.length, n := n } =
      split_loop fuel
        { line := (pre ++ (t ++ NUL :: bl)) ++ rest,
          argv := fun j => if j = n then some pre.length else argv j,
          p := (pre ++ (t ++ NUL :: bl)).length, n := n + 1 } := by
  have hd : deref (pre ++ (t ++ b :: (bl ++ rest))) pre.length ≠ NUL := by
    rw [deref_append]
    cases t with
    | nil => exact absurd rfl hne
    | cons c t =>
      rw [List.cons_append, deref_cons_zero]
      exact (ht c (List.mem_cons_self _ _)).1
  have hscan := scan_token_spec t (b :: (bl ++ rest))
    ((pre ++ (t ++ b :: (bl ++ rest))).length + 1) pre ht
    (Or.inr (by rw [deref_cons_zero]; exact hb)) (by simp; omega)
  have hq : deref (pre ++ (t ++ b :: (bl ++ rest))) (pre.length + t.length) ≠ NUL := by
    have := deref_append (pre ++ t) (b :: (bl ++ rest))
    rw [List.append_assoc, List.length_append, deref_cons_zero] at this
    rw [this]
    exact hb0
  have hset : (pre ++ (t ++ b :: (bl ++ rest))).set (pre.length + t.length) NUL =
      (pre ++ t ++ [NUL]) ++ (bl ++ rest) := by
    have := set_append_cons (pre ++ t) b NUL (bl ++ rest)
    rw [List.append_assoc, List.length_append] at this
    rw [this]
    simp
  have hskip := skip_blanks_spec bl rest ((pre ++ t ++ [NUL] ++ (bl ++ rest)).length + 1)
    (pre ++ t ++ [NUL]) hbl hrest (by simp; omega)
  have hlen : (pre ++ t ++ [NUL]).length = pre.length + t.length + 1 := by
    simp only [List.length_append, List.length_singleton]
  rw [hlen] at hskip
  conv_lhs => unfold split_loop
  simp only []
  rw [if_pos ⟨hd, hn⟩, argv_store_some _ _ _ (by unfold MAX_ARGS at *; omega)]
  simp only []
  rw [hscan]
  simp only []
  rw [if_neg hq, hset, hskip]
  simp only []
  congr 2
  · simp
  · simp
    omega

/-! ## The split loop as a whole -/

theorem take_of_take_append (l a b : List Char) (h : l.take (a ++ b).length = a ++ b) :
    l.take a.length = a := by
  have h1 : (l.take (a ++ b).length).take a.length = l.take a.length := by
    rw [List.take_take]
    congr 1
    simp
  rw [← h1, h, List.take_left]

theorem c_str_of_take (l pre t x : List Char) (ht : ∀ c ∈ t, c ≠ NUL)
    (h : l.take (pre ++ (t ++ NUL :: x)).length = pre ++ (t ++ NUL :: x)) :
    c_str l pre.length = t := by
  have hl : l = pre ++ (t ++ (NUL :: x ++ l.drop (pre ++ (t ++ NUL :: x)).length)) := by
    conv_lhs => rw [← List.take_append_drop (pre ++ (t ++ NUL :: x)).length l, h]
    simp
  rw [hl]
  exact c_str_append pre t _ ht (by rw [List.cons_append, deref_cons_zero])

theorem split_loop_spec : ∀ (fuel : Nat) (pre r post : List Char) (argv : Argv) (n : Nat),
    (∀ c ∈ r, c ≠ NUL) → deref post 0 = NUL → ¬ is_blank (deref r 0) = true →
    r.length < fuel → n ≤ MAX_ARGS - 1 →
    ∃ s, split_loop fuel { line := pre ++ (r ++ post), argv := argv, p := pre.length, n := n }
        = some s ∧
      s.n = min (n + (runs r).length) (MAX_ARGS - 1) ∧
      s.line.take pre.length = pre ∧
      (∀ i, i < n → s.argv i = argv i) ∧
      (∀ i, s.n ≤ i → s.argv i = argv i) ∧
      (∀ i, n ≤ i → i < s.n →
        ∃ q, s.argv i = some q ∧ (runs r)[i - n]? = some (c_str s.line q)) := by
  intro fuel
  induction fuel with
  | zero => intro pre r post argv n _ _ _ hfuel; exact absurd hfuel (Nat.not_lt_zero _)
  | succ f ih =>
    intro pre r post argv n hr hpost hhead hfuel hn
    by_cases hexit : r = [] ∨ ¬ n < MAX_ARGS - 1
    · -- the loop condition fails
      have hcond : ¬ (deref (pre ++ (r ++ post)) pre.length ≠ NUL ∧ n < MAX_ARGS - 1) := by
        rintro ⟨h1, h2⟩
        rcases hexit with h | h
        · subst h
          rw [deref_append, List.nil_append] at h1
          exact h1 hpost
        · exact h h2
      refine ⟨_, split_loop_exit f _ hcond, ?_, List.take_left _ _, fun i _ => rfl,
        fun i _ => rfl, ?_⟩
      · rcases hexit with h | h
        · subst h
          simp only [runs_nil, List.length_nil, Nat.add_zero]
          exact (Nat.min_eq_left hn).symm
        · have : n = MAX_ARGS - 1 := by omega
          simp only []
          omega
      · intro i h1 h2
        exact absurd h2 (by simp only []; omega)
    · have hne : r ≠ [] := fun h => hexit (Or.inl h)
      have hn2 : n < MAX_ARGS - 1 := by
        by_contra h
        exact hexit (Or.inr h)
      obtain ⟨t, htne, htb, hcases⟩ := token_decomp r hne hhead
      rcases hcases with hrt | ⟨b, bl, r3, hrt, hb, hbl, hr3⟩
      · -- the last token: the inner scan stops at the terminator
        subst hrt
        have ht : ∀ c ∈ r, c ≠ NUL ∧ ¬ is_blank c = true := fun c hc => ⟨hr c hc, htb c hc⟩
        refine ⟨_, split_loop_break f pre r post argv n htne ht hpost hn2, ?_,
          List.take_left _ _, ?_, ?_, ?_⟩
        · simp only [runs_token r htne htb, List.length_singleton]
          omega
        · intro i hi
          simp only []
          rw [if_neg (by omega)]
        · intro i hi
          simp only [] at hi ⊢
          rw [if_neg (by omega)]
        · intro i h1 h2
          simp only [] at h2 ⊢
          have hi : i = n := by omega
          subst hi
          refine ⟨pre.length, by simp, ?_⟩
          rw [runs_token r htne htb, c_str_append pre r post hr hpost]
          simp
      · -- a token followed by a delimiter: terminate it, skip, go round again
        subst hrt
        have ht : ∀ c ∈ t, c ≠ NUL ∧ ¬ is_blank c = true :=
          fun c hc => ⟨hr c (List.mem_append_left _ hc), htb c hc⟩
        have hb0 : b ≠ NUL := hr b (by simp)
        have hr3n : ∀ c ∈ r3, c ≠ NUL := fun c hc => hr c (by simp [hc])
        have hstep := split_loop_continue f pre t b bl (r3 ++ post) argv n htne ht hb hb0 hbl
          (by
            cases r3 with
            | nil => rw [List.nil_append, hpost]; decide
            | cons d r4 =>
              rw [List.cons_append, deref_cons_zero]
              rw [deref_cons_zero] at hr3
              exact hr3)
          hn2
        obtain ⟨s, hs, hsn, htake, hlo, hhi, htok⟩ :=
          ih (pre ++ (t ++ NUL :: bl)) r3 post
            (fun j => if j = n then some pre.length else argv j) (n + 1) hr3n hpost hr3
            (by simp at hfuel; omega) (by omega)
        have hruns : runs (t ++ b :: (bl ++ r3)) = t :: runs r3 := by
          rw [runs_token_cons t b _ htne htb hb, runs_blanks_append bl r3 hbl]
        have hline : pre ++ ((t ++ b :: (bl ++ r3)) ++ post) =
            pre ++ (t ++ b :: (bl ++ (r3 ++ post))) := by simp
        refine ⟨s, ?_, ?_, take_of_take_append _ _ _ htake, ?_, ?_, ?_⟩
        · rw [hline, hstep]
          exact hs
        · rw [hsn, hruns, List.length_cons]
          congr 1
          omega
        · intro i hi
          rw [hlo i (by omega), if_neg (by omega)]
        · intro i hi
          have hge : n + 1 ≤ s.n := by
            rw [hsn]
            exact Nat.le_min.2 ⟨by omega, by omega⟩
          rw [hhi i hi, if_neg (by omega)]
        · intro i h1 h2
          by_cases hi : i = n
          · subst hi
            refine ⟨pre.length, ?_, ?_⟩
            · rw [hlo i (by omega), if_pos rfl]
            · rw [hruns, c_str_of_take s.line pre t bl (fun c hc => (ht c hc).1) htake]
              simp
          · obtain ⟨q, hq1, hq2⟩ := htok i (by omega) h2
            refine ⟨q, hq1, ?_⟩
            rw [hruns, ← hq2]
            have : i - n = (i - (n + 1)) + 1 := by omega
            rw [this, List.getElem?_cons_succ]

/-! ## `parse_line` as a whole -/

theorem deref_dropWhile_nul (line : List Char) :
    deref (line.dropWhile (fun c => c != NUL)) 0 = NUL := by
  cases h : line.dropWhile (fun c => c != NUL) with
  | nil => exact deref_nil 0
  | cons d l =>
    rw [deref_cons_zero]
    have := List.head_dropWhile_not (fun c => c != NUL) line (by rw [h]; exact List.cons_ne_nil _ _)
    simp only [h, List.head_cons] at this
    simpa using this

/-- The buffer after the newline strip of shell.cpp:41-42 is the text of the
line followed by a terminator (explicit, or the one past the end). -/
theorem strip_spec (line : List Char) :
    ∃ post, (if strlen line ≠ 0 ∧ deref line (strlen line - 1) = '\n'
        then line.set (strlen line - 1) NUL else line) = line_text line ++ post ∧
      deref post 0 = NUL ∧ ∀ c ∈ line_text line, c ≠ NUL := by
  have hsplit := List.takeWhile_append_dropWhile (fun c => c != NUL) line
  have hd := deref_dropWhile_nul line
  have hs : ∀ c ∈ line.takeWhile (fun c => c != NUL), c ≠ NUL := by
    intro c hc
    have := List.mem_takeWhile_imp hc
    simpa using this
  have htext : c_str line 0 = line.takeWhile (fun c => c != NUL) := by
    simp [c_str]
  unfold line_text strlen
  rw [htext]
  generalize line.takeWhile (fun c => c != NUL) = s at hsplit hs
  generalize line.dropWhile (fun c => c != NUL) = d at hsplit hd
  subst hsplit
  rcases List.eq_nil_or_concat s with h | ⟨s0, c, h⟩
  · subst h
    refine ⟨d, ?_, hd, ?_⟩
    · simp [strip_newline]
    · simp [strip_newline]
  · rw [List.concat_eq_append] at h
    subst h
    have hlen : (s0 ++ [c]).length - 1 = s0.length := by simp
    have hne : (s0 ++ [c]).length ≠ 0 := by simp
    have hder : deref (s0 ++ [c] ++ d) s0.length = c := by
      rw [List.append_assoc, deref_append, List.singleton_append, deref_cons_zero]
    rw [hlen, hder]
    by_cases hc : c = '\n'
    · subst hc
      refine ⟨NUL :: d, ?_, deref_cons_zero _ _, ?_⟩
      · rw [if_pos ⟨hne, rfl⟩]
        have := set_append_cons s0 '\n' NUL d
        simp only [List.append_assoc, List.singleton_append]
        rw [this]
        simp [strip_newline]
      · intro c hc
        have : strip_newline (s0 ++ ['\n']) = s0 := by simp [strip_newline]
        rw [this] at hc
        exact hs c (List.mem_append_left _ hc)
    · have hstrip : strip_newline (s0 ++ [c]) = s0 ++ [c] := by
        simp [strip_newline, hc]
      refine ⟨d, ?_, hd, ?_⟩
      · rw [if_neg (fun h => hc h.2), hstrip]
      · rw [hstrip]
        exact hs

theorem runs_length_pos (r : List Char) (hne : r ≠ []) (hhead : ¬ is_blank (deref r 0) = true) :
    0 < (runs r).length := by
  obtain ⟨t, htne, htb, hcases⟩ := token_decomp r hne hhead
  rcases hcases with h | ⟨b, bl, r3, h, hb, _, _⟩
  · subst h
    rw [runs_token r htne htb]
    simp
  · subst h
    rw [runs_token_cons t b _ htne htb hb]
    simp

/-- What `parse_line` does on every buffer: it returns, the count is the
number of runs of the text capped at `MAX_ARGS - 1`, the first `argc` slots
point at those runs, and the remaining slots are as described. -/
theorem parse_line_spec (line : List Char) (argv : Argv) :
    ∃ res, parse_line line argv = some res ∧
      res.argc = min (runs (line_text line)).length (MAX_ARGS - 1) ∧
      (∀ i, i < res.argc →
        ∃ q, res.argv i = some q ∧ (runs (line_text line))[i]? = some (c_str res.line q)) ∧
      (res.argc = 0 → res.argv = argv) ∧
      (0 < res.argc → res.argv res.argc = none) ∧
      (∀ i, res.argc < i → res.argv i = argv i) := by
  obtain ⟨post, hline, hpost, htext⟩ := strip_spec line
  unfold parse_line
  simp only []
  rw [hline]
  generalize line_text line = text at hline htext
  have hsplit := List.takeWhile_append_dropWhile is_blank text
  have hbl : ∀ c ∈ text.takeWhile is_blank, is_blank c = true :=
    fun c hc => List.mem_takeWhile_imp hc
  have hr : ∀ c ∈ text.dropWhile is_blank, c ≠ NUL :=
    fun c hc => htext c ((List.dropWhile_sublist _).subset hc)
  have hhead : ¬ is_blank (deref (text.dropWhile is_blank) 0) = true := by
    cases h2 : text.dropWhile is_blank with
    | nil => rw [deref_nil]; decide
    | cons d r4 =>
      rw [deref_cons_zero]
      have := List.head_dropWhile_not is_blank text (by rw [h2]; exact List.cons_ne_nil _ _)
      simp only [h2, List.head_cons] at this
      simpa using this
  generalize text.takeWhile is_blank = bl at hsplit hbl
  generalize text.dropWhile is_blank = r at hsplit hr hhead
  subst hsplit
  have hruns : runs (bl ++ r) = runs r := runs_blanks_append bl r hbl
  have hhead2 : ¬ is_blank (deref (r ++ post) 0) = true := by
    cases r with
    | nil => rw [List.nil_append, hpost]; decide
    | cons d r4 =>
      rw [List.cons_append, deref_cons_zero]
      rw [deref_cons_zero] at hhead
      exact hhead
  have hskip := skip_blanks_spec bl (r ++ post) ((bl ++ r ++ post).length + 1) [] hbl hhead2
    (by simp; omega)
  simp only [List.nil_append, List.length_nil, Nat.zero_add] at hskip
  rw [List.append_assoc] at hskip ⊢
  rw [hskip]
  simp only []
  have hder : deref (bl ++ (r ++ post)) bl.length = deref (r ++ post) 0 := deref_append _ _
  rw [hder, hruns]
  by_cases hr0 : r = []
  · subst hr0
    rw [List.nil_append, if_pos hpost]
    refine ⟨_, rfl, ?_, ?_, fun _ => rfl, ?_, fun i _ => rfl⟩
    · simp [runs_nil]
    · intro i hi
      exact absurd hi (Nat.not_lt_zero _)
    · intro h
      exact absurd h (Nat.lt_irrefl _)
  · have hnn : deref (r ++ post) 0 ≠ NUL := by
      cases r with
      | nil => exact absurd rfl hr0
      | cons d r4 =>
        rw [List.cons_append, deref_cons_zero]
        exact hr d (List.mem_cons_self _ _)
    rw [if_neg hnn]
    obtain ⟨s, hs, hsn, _, _, hhi, htok⟩ :=
      split_loop_spec ((bl ++ (r ++ post)).length + 1) bl r post argv 0 hr hpost hhead
        (by simp; omega) (Nat.zero_le _)
    rw [hs]
    simp only []
    have hsn2 : s.n = min (runs r).length (MAX_ARGS - 1) := by
      rw [hsn, Nat.zero_add]
    have hlt : s.n < MAX_ARGS := by
      rw [hsn2]
      unfold MAX_ARGS
      omega
    have hpos : 0 < s.n := by
      rw [hsn2]
      exact Nat.lt_min.2 ⟨runs_length_pos r hr0 hhead, by unfold MAX_ARGS; omega⟩
    rw [argv_store_some _ _ _ hlt]
    refine ⟨_, rfl, hsn2, ?_, ?_, ?_, ?_⟩
    · intro i hi
      simp only [] at hi ⊢
      obtain ⟨q, hq1, hq2⟩ := htok i (Nat.zero_le _) hi
      refine ⟨q, ?_, hq2⟩
      rw [if_neg (by omega)]
      exact hq1
    · intro h
      simp only [] at h
      omega
    · intro _
      simp
    · intro i hi
      simp only [] at hi ⊢
      rw [if_neg (by omega)]
      exact hhi i (by omega)

/-! ## What the caller reads through `argv` -/

theorem argv_strings_eq (line : List Char) (argv : Argv) (n : Nat) (L : List (List Char))
    (hn : n = min L.length (MAX_ARGS - 1))
    (h : ∀ i, i < n → ∃ q, argv i = some q ∧ L[i]? = some (c_str line q)) :
    argv_strings line argv n = (L.take (MAX_ARGS - 1)).map some := by
  apply List.ext_getElem?
  intro i
  unfold argv_strings
  rw [List.getElem?_map, List.getElem?_map, List.getElem?_take]
  by_cases hi : i < n
  · obtain ⟨q, hq1, hq2⟩ := h i hi
    have hi2 : i < MAX_ARGS - 1 := by omega
    rw [List.getElem?_range hi, if_pos hi2, hq2]
    simp [hq1]
  · rw [List.getElem?_eq_none (by simpa using hi)]
    by_cases hi2 : i < MAX_ARGS - 1
    · rw [if_pos hi2, List.getElem?_eq_none (by omega)]
      rfl
    · rw [if_neg hi2]
      rfl

theorem exec_args_spec (line : List Char) (argv : Argv) (n : Nat) (L : List (List Char))
    (h : ∀ i, i < n → ∃ q, argv i = some q ∧ L[i]? = some (c_str line q))
    (hnull : argv n = none) :
    ∀ (fuel i : Nat), i ≤ n → n - i < fuel → exec_args fuel line argv i = (L.take n).drop i := by
  intro fuel
  induction fuel with
  | zero => intro i _ hf; exact absurd hf (Nat.not_lt_zero _)
  | succ f ih =>
    intro i hi hf
    unfold exec_args
    by_cases hin : i = n
    · subst hin
      rw [hnull]
      simp only []
      rw [List.drop_eq_nil_of_le (by simp)]
    · have hlt : i < n := by omega
      obtain ⟨q, hq1, hq2⟩ := h i hlt
      rw [hq1]
      simp only []
      rw [ih (i + 1) (by omega) (by omega)]
      have hL : i < L.length := by
        by_contra hc
        rw [List.getElem?_eq_none (by omega)] at hq2
        exact Option.noConfusion hq2
      have hlen : i < (L.take n).length := by
        rw [List.length_take]
        exact Nat.lt_min.2 ⟨hlt, hL⟩
      rw [List.drop_eq_getElem_cons hlen]
      congr 1
      have h1 : (L.take n)[i]? = some (c_str line q) := by
        rw [List.getElem?_take, if_pos hlt, hq2]
      rw [List.getElem?_eq_getElem hlen] at h1
      exact (Option.some.inj h1).symm

/-- What `main` finds in `argv` after `parse_line` on a line with at least one
token. -/
theorem parse_line_tokens (line : List Char) (stack : Argv) (t0 : List Char)
    (rest : List (List Char)) (hruns : runs (line_text line) = t0 :: rest) :
    ∃ res q0, parse_line line stack = some res ∧ res.argc ≠ 0 ∧ res.argv 0 = some q0 ∧
      c_str res.line q0 = t0 ∧
      (if res.argc > 1 then (res.argv 1).map (c_str res.line) else none) = rest.head? ∧
      (res.argc > 1 ↔ rest ≠ []) ∧
      exec_args MAX_ARGS res.line res.argv 0 = (t0 :: rest).take (MAX_ARGS - 1) := by
  obtain ⟨res, hres, hargc, htok, _, hnull, _⟩ := parse_line_spec line stack
  rw [hruns] at hargc htok
  have hpos : 0 < res.argc := by
    rw [hargc]
    exact Nat.lt_min.2 ⟨by simp, by unfold MAX_ARGS; omega⟩
  obtain ⟨q0, hq0, hq0s⟩ := htok 0 hpos
  have hc0 : c_str res.line q0 = t0 := by
    simp only [List.getElem?_cons_zero] at hq0s
    exact (Option.some.inj hq0s).symm
  have hgt : res.argc > 1 ↔ rest ≠ [] := by
    rw [hargc]
    cases rest with
    | nil => simp
    | cons t1 r => simp [MAX_ARGS]
  refine ⟨res, q0, hres, by omega, hq0, hc0, ?_, hgt, ?_⟩
  · by_cases h1 : res.argc > 1
    · rw [if_pos h1]
      obtain ⟨q1, hq1, hq1s⟩ := htok 1 h1
      rw [hq1]
      cases rest with
      | nil => exact absurd rfl (hgt.1 h1)
      | cons t1 r =>
        simp only [List.getElem?_cons_succ, List.getElem?_cons_zero] at hq1s
        simp only [Option.map_some', List.head?_cons]
        exact hq1s.symm
    · rw [if_neg h1]
      have : rest = [] := by
        by_contra hc
        exact h1 (hgt.2 hc)
      rw [this]
      rfl
  · rw [exec_args_spec res.line res.argv res.argc (t0 :: rest) htok (hnull hpos) MAX_ARGS 0
      (Nat.zero_le _) (by rw [hargc]; unfold MAX_ARGS; omega)]
    rw [List.drop_zero, hargc, List.take_eq_take]
    simp only [List.length_cons]
    unfold MAX_ARGS
    omega

theorem parse_line_no_tokens (line : List Char) (stack : Argv)
    (hruns : runs (line_text line) = []) :
    ∃ res, parse_line line stack = some res ∧ res.argc = 0 ∧ res.argv = stack := by
  obtain ⟨res, hres, hargc, _, hsame, _, _⟩ := parse_line_spec line stack
  rw [hruns] at hargc
  have h0 : res.argc = 0 := by
    rw [hargc]
    simp
  exact ⟨res, hres, h0, hsame h0⟩

/-! ## The dispatch of `main` in terms of tokens -/

theorem dispatch_eq (s : State) (line : List Char) (stack : Argv) (os : Os) :
    dispatch s (some line) stack os = some (dispatch_tokens s (runs (line_text line)) os) := by
  cases hruns : runs (line_text line) with
  | nil =>
    obtain ⟨res, hres, h0, _⟩ := parse_line_no_tokens line stack hruns
    unfold dispatch dispatch_tokens
    simp only []
    rw [hres]
    simp only []
    rw [if_pos h0]
  | cons t0 rest =>
    obtain ⟨res, q0, hres, hne, hq0, hc0, hdir, hgt, hargs⟩ :=
      parse_line_tokens line stack t0 rest hruns
    unfold dispatch dispatch_tokens
    simp only []
    rw [hres]
    simp only []
    rw [if_neg hne, hq0]
    simp only []
    rw [hc0, hargs]
    have htarget : (if res.argc > 1 then (res.argv 1).map (c_str res.line) else s.proc.home).getD
        ['.'] = cd_target rest s.proc.home := by
      unfold cd_target
      cases rest with
      | nil =>
        have : ¬ res.argc > 1 := fun h => hgt.1 h rfl
        rw [if_neg this]
        rfl
      | cons t1 r =>
        have h1 : res.argc > 1 := hgt.2 (List.cons_ne_nil _ _)
        rw [if_pos h1] at hdir ⊢
        rw [hdir]
        rfl
    rw [htarget]
    split
    · rfl
    · split
      · cases os.chdir <;> rfl
      · cases os.fork <;> rfl

theorem main_step_line (s : State) (line : List Char) (stack : Argv) (os : Os)
    (hs : s.ctl = Ctl.READ) :
    main_step s (Event.line (some line) stack os) =
      some (dispatch_tokens s (runs (line_text line)) os) := by
  unfold main_step
  rw [hs]
  exact dispatch_eq s line stack os

/-! ## The invariant of a session -/

/-- A step that keeps the disposition and appends actions keeps the invariant,
under the side conditions on the new control point and children. -/
theorem session_inv_extend (s t : State) (acts : List Act) (h : session_inv s)
    (hproc : t.proc.sigint = s.proc.sigint) (htr : t.trace = s.trace ++ acts)
    (hk : t.ctl ≠ Ctl.KILLED) (hcode : ∀ c, t.ctl = Ctl.TERMINATED c → c = 0)
    (hsa : acts.count Act.sigaction_sigint = 0)
    (hchild : ∀ pid c, Act.child pid c ∈ acts → c.proc.sigint = Disposition.SIG_DFL)
    (hwait : ∀ pid, t.ctl = Ctl.WAIT pid → t.children = [pid])
    (hother : (∀ pid, t.ctl ≠ Ctl.WAIT pid) → t.children = []) :
    session_inv t := by
  obtain ⟨h1, _, _, h4, h5, _, _⟩ := h
  refine ⟨hproc.trans h1, hk, hcode, ?_, ?_, hwait, hother⟩
  · rw [htr, List.count_append, h4, hsa]
  · intro pid c hc
    rw [htr, List.mem_append] at hc
    rcases hc with hc | hc
    · exact h5 pid c hc
    · exact hchild pid c hc

theorem session_inv_init (p : Proc) : session_inv (main_init p) := by
  refine ⟨rfl, ?_, ?_, ?_, ?_, ?_, ?_⟩
  · intro h
    exact Ctl.noConfusion h
  · intro c h
    exact Ctl.noConfusion h
  · simp [main_init]
  · intro pid c hc
    simp [main_init] at hc
  · intro pid h
    exact Ctl.noConfusion h
  · intro _
    simp [main_init]

theorem child_main_sigint (p : Proc) (file : List Char) (args : List (List Char)) (ok : Bool) :
    (child_main p file args ok).proc = { p with sigint := Disposition.SIG_DFL } := by
  unfold child_main
  cases ok <;> rfl

theorem session_inv_dispatch (s : State) (toks : List (List Char)) (os : Os)
    (h : session_inv s) (hs : s.ctl = Ctl.READ) : session_inv (dispatch_tokens s toks os) := by
  have hch : s.children = [] :=
    h.2.2.2.2.2.2 (fun pid hp => by rw [hs] at hp; exact Ctl.noConfusion hp)
  unfold dispatch_tokens
  split
  · exact session_inv_extend s _ [] h rfl (List.append_nil _).symm
      (fun hc => Ctl.noConfusion hc) (fun c hc => Ctl.noConfusion hc) rfl
      (fun pid c hc => absurd hc (List.not_mem_nil _))
      (fun pid hp => Ctl.noConfusion hp) (fun _ => hch)
  · split
    · exact session_inv_extend s _ [] h rfl (List.append_nil _).symm
        (fun hc => Ctl.noConfusion hc) (fun c hc => (Ctl.TERMINATED.inj hc).symm) rfl
        (fun pid c hc => absurd hc (List.not_mem_nil _))
        (fun pid hp => Ctl.noConfusion hp) (fun _ => hch)
    · split
      · split
        · exact session_inv_extend s _ _ h rfl rfl
            (fun hc => Ctl.noConfusion hc) (fun c hc => Ctl.noConfusion hc) (by simp)
            (fun pid c hc => by simp at hc)
            (fun pid hp => Ctl.noConfusion hp) (fun _ => hch)
        · exact session_inv_extend s _ _ h rfl rfl
            (fun hc => Ctl.noConfusion hc) (fun c hc => Ctl.noConfusion hc) (by simp)
            (fun pid c hc => by simp at hc)
            (fun pid hp => Ctl.noConfusion hp) (fun _ => hch)
      · split
        · exact session_inv_extend s _ _ h rfl rfl
            (fun hc => Ctl.noConfusion hc) (fun c hc => Ctl.noConfusion hc) (by simp)
            (fun pid c hc => by simp at hc)
            (fun pid hp => Ctl.noConfusion hp) (fun _ => hch)
        · rename_i pid _
          refine session_inv_extend s _ _ h rfl rfl
            (fun hc => Ctl.noConfusion hc) (fun c hc => Ctl.noConfusion hc) (by simp)
            ?_ ?_ ?_
          · intro pid2 c hc
            simp only [List.mem_cons, List.mem_singleton, List.not_mem_nil, or_false] at hc
            rcases hc with hc | hc
            · exact Act.noConfusion hc
            · have hc2 := (Act.child.inj hc).2
              rw [hc2, child_main_sigint]
          · intro pid2 hp
            have : pid = pid2 := Ctl.WAIT.inj hp
            subst this
            show pid :: s.children = [pid]
            rw [hch]
          · intro hp
            exact absurd rfl (hp pid)

theorem session_inv_sigint (s : State) (h : session_inv s) :
    deliver_sigint s = { s with trace := s.trace ++ [Act.stdout ['\n']] } := by
  unfold deliver_sigint
  rw [h.1]
  rfl

theorem session_inv_deliver (s : State) (h : session_inv s) : session_inv (deliver_sigint s) := by
  rw [session_inv_sigint s h]
  obtain ⟨h1, h2, h3, h4, h5, h6, h7⟩ := h
  exact session_inv_extend s _ _ ⟨h1, h2, h3, h4, h5, h6, h7⟩ rfl rfl h2 h3 (by simp)
    (fun pid c hc => by simp at hc)
    h6 h7

theorem session_inv_wait (s : State) (pid : Nat) (r : WaitResult) (h : session_inv s)
    (hs : s.ctl = Ctl.WAIT pid) : session_inv (wait_step s pid r) := by
  have hch : s.children = [pid] := h.2.2.2.2.2.1 pid hs
  cases r with
  | EINTR =>
    refine session_inv_extend s _ _ h rfl rfl (by simp only [wait_step]; exact h.2.1)
      (by simp only [wait_step]; exact h.2.2.1) (by simp)
      (fun pid c hc => by simp at hc) ?_ ?_
    · intro pid2 hp
      simp only [wait_step] at hp ⊢
      rw [hs] at hp
      have : pid = pid2 := Ctl.WAIT.inj hp
      subst this
      exact hch
    · intro hp
      simp only [wait_step] at hp
      exact absurd hs (hp pid)
  | failed =>
    refine session_inv_extend s _ _ h rfl rfl (fun hc => Ctl.noConfusion hc)
      (fun c hc => Ctl.noConfusion hc) (by simp)
      (fun pid c hc => by simp at hc) (fun pid2 hp => Ctl.noConfusion hp) ?_
    intro _
    simp only [wait_step]
    rw [hch, List.erase_cons_head]
  | reaped st =>
    refine session_inv_extend s _ _ h rfl rfl (fun hc => Ctl.noConfusion hc)
      (fun c hc => Ctl.noConfusion hc) (by simp)
      (fun pid c hc => by simp at hc) (fun pid2 hp => Ctl.noConfusion hp) ?_
    intro _
    simp only [wait_step]
    rw [hch, List.erase_cons_head]

theorem session_inv_step (s t : State) (e : Event) (h : session_inv s)
    (hstep : main_step s e = some t) : session_inv t := by
  unfold main_step at hstep
  split at hstep
  · have := Option.some.inj hstep
    subst this
    rename_i hc
    exact session_inv_extend s _ _ h rfl rfl (fun hc => Ctl.noConfusion hc)
      (fun c hc => Ctl.noConfusion hc) (by simp [print_prompt])
      (fun pid c hc => by simp [print_prompt] at hc) (fun pid2 hp => Ctl.noConfusion hp)
      (fun _ => h.2.2.2.2.2.2 (fun pid hp => by rw [hc] at hp; exact Ctl.noConfusion hp))
  · rename_i got stack os hc
    cases got with
    | none =>
      have := Option.some.inj hstep
      subst this
      exact session_inv_extend s _ _ h rfl rfl (fun hc => Ctl.noConfusion hc)
        (fun c hc => (Ctl.TERMINATED.inj hc).symm) (by simp)
        (fun pid c hc => by simp at hc) (fun pid2 hp => Ctl.noConfusion hp)
        (fun _ => h.2.2.2.2.2.2 (fun pid hp => by rw [hc] at hp; exact Ctl.noConfusion hp))
    | some line =>
      rw [dispatch_eq] at hstep
      have := Option.some.inj hstep
      subst this
      exact session_inv_dispatch s _ os h hc
  · rename_i pid r hc
    have := Option.some.inj hstep
    subst this
    exact session_inv_wait s pid r h hc
  · have := Option.some.inj hstep
    subst this
    exact session_inv_deliver s h
  · have := Option.some.inj hstep
    subst this
    exact session_inv_deliver s h
  · have := Option.some.inj hstep
    subst this
    exact session_inv_deliver s h
  · exact Option.noConfusion hstep

theorem session_inv_run_from : ∀ (evs : List Event) (s t : State), session_inv s →
    main_run s evs = some t → session_inv t := by
  intro evs
  induction evs with
  | nil =>
    intro s t h hrun
    have := Option.some.inj hrun
    subst this
    exact h
  | cons e es ih =>
    intro s t h hrun
    unfold main_run at hrun
    cases hstep : main_step s e with
    | none =>
      rw [hstep] at hrun
      exact Option.noConfusion hrun
    | some u =>
      rw [hstep] at hrun
      exact ih u t (session_inv_step s u e h hstep) hrun

theorem session_inv_run (p : Proc) (evs : List Event) (s : State)
    (hrun : main_run (main_init p) evs = some s) : session_inv s :=
  session_inv_run_from evs _ s (session_inv_init p) hrun

/-! ## The runs of a text are its maximal delimiter-free pieces -/

theorem runs_weave_aux : ∀ (n : Nat) (r : List Char), r.length ≤ n →
    ¬ is_blank (deref r 0) = true →
    (∀ t ∈ runs r, t ≠ [] ∧ ∀ c ∈ t, ¬ is_blank c = true) ∧
    ∃ gs : List (List Char), gs.length = (runs r).length ∧
      (∀ g ∈ gs, ∀ c ∈ g, is_blank c = true) ∧ (∀ g ∈ gs.dropLast, g ≠ []) ∧
      weave (runs r) gs = r := by
  intro n
  induction n with
  | zero =>
    intro r hlen _
    have hr : r = [] := List.length_eq_zero.1 (Nat.le_zero.1 hlen)
    subst hr
    rw [runs_nil]
    exact ⟨fun t ht => absurd ht (List.not_mem_nil _), [], rfl,
      fun g hg => absurd hg (List.not_mem_nil _), fun g hg => absurd hg (List.not_mem_nil _), rfl⟩
  | succ n ih =>
    intro r hlen hhead
    by_cases hr : r = []
    · subst hr
      rw [runs_nil]
      exact ⟨fun t ht => absurd ht (List.not_mem_nil _), [], rfl,
        fun g hg => absurd hg (List.not_mem_nil _),
        fun g hg => absurd hg (List.not_mem_nil _), rfl⟩
    · obtain ⟨t, htne, htb, hcases⟩ := token_decomp r hr hhead
      rcases hcases with hrt | ⟨b, bl, r3, hrt, hb, hbl, hr3⟩
      · subst hrt
        rw [runs_token r htne htb]
        refine ⟨?_, [[]], rfl, ?_, ?_, ?_⟩
        · intro t ht
          rw [List.mem_singleton] at ht
          subst ht
          exact ⟨htne, htb⟩
        · intro g hg c hc
          rw [List.mem_singleton] at hg
          subst hg
          exact absurd hc (List.not_mem_nil _)
        · intro g hg
          exact absurd hg (List.not_mem_nil _)
        · simp [weave]
      · subst hrt
        have hlen3 : r3.length ≤ n := by
          simp only [List.length_append, List.length_cons] at hlen
          omega
        obtain ⟨ih1, gs3, hg1, hg2, hg3, hg4⟩ := ih r3 hlen3 hr3
        have hruns : runs (t ++ b :: (bl ++ r3)) = t :: runs r3 := by
          rw [runs_token_cons t b _ htne htb hb, runs_blanks_append bl r3 hbl]
        rw [hruns]
        refine ⟨?_, (b :: bl) :: gs3, ?_, ?_, ?_, ?_⟩
        · intro u hu
          rcases List.mem_cons.1 hu with hu | hu
          · subst hu
            exact ⟨htne, htb⟩
          · exact ih1 u hu
        · simp [hg1]
        · intro g hg c hc
          rcases List.mem_cons.1 hg with hg | hg
          · subst hg
            rcases List.mem_cons.1 hc with hc | hc
            · subst hc
              exact hb
            · exact hbl c hc
          · exact hg2 g hg c hc
        · intro g hg
          cases gs3 with
          | nil => exact absurd hg (List.not_mem_nil _)
          | cons g3 gs4 =>
            rw [List.dropLast_cons₂] at hg
            rcases List.mem_cons.1 hg with hg | hg
            · subst hg
              exact List.cons_ne_nil _ _
            · exact hg3 g hg
        · simp [weave, hg4]

/-- The runs of a text are non-empty and delimiter-free, and the text is a gap,
then the runs in order, each followed by a gap; the gaps hold delimiters only
and the gaps between two runs are non-empty. -/
theorem runs_maximal (s : List Char) :
    (∀ t ∈ runs s, t ≠ [] ∧ ∀ c ∈ t, c ≠ ' ' ∧ c ≠ '\t') ∧
    ∃ (g0 : List Char) (gs : List (List Char)),
      (∀ c ∈ g0, c = ' ' ∨ c = '\t') ∧ gs.length = (runs s).length ∧
      (∀ g ∈ gs, ∀ c ∈ g, c = ' ' ∨ c = '\t') ∧ (∀ g ∈ gs.dropLast, g ≠ []) ∧
      s = g0 ++ weave (runs s) gs := by
  have hsplit := List.takeWhile_append_dropWhile is_blank s
  have hbl : ∀ c ∈ s.takeWhile is_blank, is_blank c = true :=
    fun c hc => List.mem_takeWhile_imp hc
  have hhead : ¬ is_blank (deref (s.dropWhile is_blank) 0) = true := by
    cases h2 : s.dropWhile is_blank with
    | nil => rw [deref_nil]; decide
    | cons d r4 =>
      rw [deref_cons_zero]
      have := List.head_dropWhile_not is_blank s (by rw [h2]; exact List.cons_ne_nil _ _)
      simp only [h2, List.head_cons] at this
      simpa using this
  generalize s.takeWhile is_blank = bl at hsplit hbl
  generalize s.dropWhile is_blank = r at hsplit hhead
  subst hsplit
  obtain ⟨h1, gs, hg1, hg2, hg3, hg4⟩ := runs_weave_aux r.length r (Nat.le_refl _) hhead
  rw [runs_blanks_append bl r hbl]
  refine ⟨?_, bl, gs, fun c hc => (is_blank_iff c).1 (hbl c hc), hg1,
    fun g hg c hc => (is_blank_iff c).1 (hg2 g hg c hc), hg3, by rw [hg4]⟩
  intro t ht
  refine ⟨(h1 t ht).1, fun c hc => ?_⟩
  have hnb := (h1 t ht).2 c hc
  exact ⟨fun e => hnb ((is_blank_iff c).2 (Or.inl e)), fun e => hnb ((is_blank_iff c).2 (Or.inr e))⟩

/-! ## The tokenizer -/

theorem parse_line_result (line : List Char) (stack : Argv) :
    ∃ res, parse_line line stack = some res ∧
      res.argc = min (runs (line_text line)).length (MAX_ARGS - 1) ∧
      argv_strings res.line res.argv res.argc =
        ((runs (line_text line)).take (MAX_ARGS - 1)).map some := by
  obtain ⟨res, hres, hargc, htok, _, _, _⟩ := parse_line_spec line stack
  exact ⟨res, hres, hargc, argv_strings_eq res.line res.argv res.argc _ hargc htok⟩

/-- C1: on a line with at most `MAX_ARGS - 1` tokens `parse_line` returns, its
count is the number of maximal runs of non-delimiter characters of the text
of the line (the C string without one trailing newline), and `argv` points at
exactly those runs in order. The runs are non-empty, free of space and tab, and
laid out in the text in order with delimiter-only gaps around them. The line
`"  ls   -l  file.txt "` gives `ls`, `-l`, `file.txt` with count 3. -/
theorem C1_parse_line_runs (line : List Char) (stack : Argv)
    (h : (runs (line_text line)).length ≤ MAX_ARGS - 1) :
    (∃ res, parse_line line stack = some res ∧
      res.argc = (runs (line_text line)).length ∧
      argv_strings res.line res.argv res.argc = (runs (line_text line)).map some) ∧
    (∀ t ∈ runs (line_text line), t ≠ [] ∧ ∀ c ∈ t, c ≠ ' ' ∧ c ≠ '\t') ∧
    (∃ (g0 : List Char) (gs : List (List Char)),
      (∀ c ∈ g0, c = ' ' ∨ c = '\t') ∧ gs.length = (runs (line_text line)).length ∧
      (∀ g ∈ gs, ∀ c ∈ g, c = ' ' ∨ c = '\t') ∧ (∀ g ∈ gs.dropLast, g ≠ []) ∧
      line_text line = g0 ++ weave (runs (line_text line)) gs) ∧
    (∃ res, parse_line "  ls   -l  file.txt ".toList stack = some res ∧ res.argc = 3 ∧
      argv_strings res.line res.argv res.argc =
        [some "ls".toList, some "-l".toList, some "file.txt".toList]) := by
  refine ⟨?_, (runs_maximal _).1, (runs_maximal _).2, ?_⟩
  · obtain ⟨res, hres, hargc, hstr⟩ := parse_line_result line stack
    refine ⟨res, hres, ?_, ?_⟩
    · rw [hargc]
      exact Nat.min_eq_left h
    · rw [hstr, List.take_of_length_le h]
  · obtain ⟨res, hres, hargc, hstr⟩ := parse_line_result "  ls   -l  file.txt ".toList stack
    have hruns : runs (line_text "  ls   -l  file.txt ".toList) =
        ["ls".toList, "-l".toList, "file.txt".toList] := by decide
    rw [hruns] at hargc hstr
    exact ⟨res, hres, hargc, hstr⟩

theorem C1_parse_line_runs_witness :
    (runs (line_text "ls -l\n".toList)).length ≤ MAX_ARGS - 1 ∧
    ∃ res, parse_line "ls -l\n".toList junk = some res ∧
      res.argc = (runs (line_text "ls -l\n".toList)).length ∧
      argv_strings res.line res.argv res.argc = (runs (line_text "ls -l\n".toList)).map some :=
  ⟨by decide, (C1_parse_line_runs "ls -l\n".toList junk (by decide)).1⟩

theorem line_text_blank (bl nl : List Char) (hbl : ∀ c ∈ bl, c = ' ' ∨ c = '\t')
    (hnl : nl = [] ∨ nl = ['\n']) : line_text (bl ++ nl) = bl := by
  have hne : ∀ c ∈ bl, c ≠ NUL ∧ c ≠ '\n' := by
    intro c hc
    rcases hbl c hc with h | h <;> subst h <;> decide
  have hall : ∀ c ∈ bl ++ nl, (fun c => c != NUL) c = true := by
    intro c hc
    rcases List.mem_append.1 hc with hc | hc
    · simpa using (hne c hc).1
    · rcases hnl with h | h
      · subst h
        exact absurd hc (List.not_mem_nil _)
      · subst h
        rw [List.mem_singleton] at hc
        subst hc
        decide
  unfold line_text c_str
  rw [List.drop_zero, List.takeWhile_eq_self_iff.2 hall]
  unfold strip_newline
  rcases hnl with h | h
  · subst h
    rw [List.append_nil]
    have : bl.getLast? ≠ some '\n' := by
      intro hl
      exact (hne _ (List.mem_of_getLast?_eq_some hl)).2 rfl
    rw [if_neg this]
  · subst h
    rw [List.getLast?_concat, if_pos rfl, List.dropLast_concat]

theorem runs_blank (bl : List Char) (hbl : ∀ c ∈ bl, c = ' ' ∨ c = '\t') : runs bl = [] := by
  have := runs_blanks_append bl [] (fun c hc => (is_blank_iff c).2 (hbl c hc))
  rw [List.append_nil, runs_nil] at this
  exact this

/-- C2, as the code has it: on a line made of spaces and tabs only, with or
without its trailing newline (the empty line included), `parse_line` returns
count 0 and leaves `argv` alone, and the driver goes from READ to PROMPT with
its process state, its children and its trace unchanged: no builtin ran and no
child was created. -/
theorem C2_blank_line_reprompts (s : State) (bl nl : List Char) (stack : Argv) (os : Os)
    (hs : s.ctl = Ctl.READ) (hbl : ∀ c ∈ bl, c = ' ' ∨ c = '\t')
    (hnl : nl = [] ∨ nl = ['\n']) :
    (∃ res, parse_line (bl ++ nl) stack = some res ∧ res.argc = 0 ∧ res.argv = stack) ∧
    main_step s (Event.line (some (bl ++ nl)) stack os) = some { s with ctl := Ctl.PROMPT } := by
  have hruns : runs (line_text (bl ++ nl)) = [] := by
    rw [line_text_blank bl nl hbl hnl]
    exact runs_blank bl hbl
  refine ⟨parse_line_no_tokens _ stack hruns, ?_⟩
  rw [main_step_line s _ stack os hs, hruns]
  rfl

theorem C2_blank_line_reprompts_witness :
    (∃ res, parse_line (" \t ".toList ++ ['\n']) junk = some res ∧ res.argc = 0 ∧
      res.argv = junk) ∧
    main_step { main_init proc0 with ctl := Ctl.READ }
        (Event.line (some (" \t ".toList ++ ['\n'])) junk os0) =
      some { main_init proc0 with ctl := Ctl.PROMPT } :=
  C2_blank_line_reprompts { main_init proc0 with ctl := Ctl.READ } " \t ".toList ['\n'] junk os0
    rfl (by decide) (Or.inr rfl)

/-- C2 fails as stated: the line made of a carriage return and a newline holds
whitespace only, yet `parse_line` returns one token and the driver forks and
goes to `waitpid`. -/
theorem C2_counterexample_carriage_return :
    (∀ c ∈ ['\r', '\n'], c ∈ [' ', '\t', '\r', '\n', Char.ofNat 11, Char.ofNat 12]) ∧
    (parse_line ['\r', '\n'] junk).map
        (fun r => (r.argc, argv_strings r.line r.argv r.argc)) = some (1, [some ['\r']]) ∧
    (main_run (main_init proc0)
        [Event.getcwd true, Event.line (some ['\r', '\n']) junk os0]).map
        (fun s => (s.ctl, s.children, s.trace.drop 2)) =
      some (Ctl.WAIT 7, [7], [Act.fork (some 7),
        Act.child 7 (child_main (main_init proc0).proc ['\r'] [['\r']] true)]) := by
  decide

/-- C3: `parse_line` returns on every buffer, without a
store outside the `MAX_ARGS` slots of `argv`, and its count is at most
`MAX_ARGS - 1`, hence an index inside the array. The count is the number of
tokens capped at `MAX_ARGS - 1` and `argv` points at the first `MAX_ARGS - 1`
tokens in order: when the line holds more, the count is `MAX_ARGS - 1`, the
result is exactly the first `MAX_ARGS - 1` tokens and the rest is dropped.
Whenever the count is positive the slot at the count holds the sentinel
`NULL`; when the count is 0 the array is as it was before the call. -/
theorem C3_parse_line_bounded (line : List Char) (stack : Argv) :
    ∃ res, parse_line line stack = some res ∧
      res.argc ≤ MAX_ARGS - 1 ∧ res.argc < MAX_ARGS ∧
      res.argc = min (runs (line_text line)).length (MAX_ARGS - 1) ∧
      argv_strings res.line res.argv res.argc =
        ((runs (line_text line)).take (MAX_ARGS - 1)).map some ∧
      (MAX_ARGS - 1 < (runs (line_text line)).length →
        res.argc = MAX_ARGS - 1 ∧ res.argv (MAX_ARGS - 1) = none ∧
        argv_strings res.line res.argv (MAX_ARGS - 1) =
          ((runs (line_text line)).take (MAX_ARGS - 1)).map some) ∧
      (0 < res.argc → res.argv res.argc = none) ∧
      (res.argc = 0 → res.argv = stack) ∧
      (∀ i, MAX_ARGS ≤ i → res.argv i = stack i) := by
  obtain ⟨res, hres, hargc, htok, hzero, hnull, hrest⟩ := parse_line_spec line stack
  have hle : res.argc ≤ MAX_ARGS - 1 := by
    rw [hargc]
    exact Nat.min_le_right _ _
  have hstr := argv_strings_eq res.line res.argv res.argc _ hargc htok
  refine ⟨res, hres, hle, ?_, hargc, hstr, ?_, hnull, hzero, fun i hi => hrest i ?_⟩
  · unfold MAX_ARGS at hle ⊢
    omega
  · intro hmore
    have h127 : res.argc = MAX_ARGS - 1 := by
      rw [hargc]
      exact Nat.min_eq_right (Nat.le_of_lt hmore)
    have hpos : 0 < res.argc := by
      rw [h127]
      unfold MAX_ARGS
      omega
    have hn := hnull hpos
    rw [h127] at hn hstr
    exact ⟨h127, hn, hstr⟩
  · unfold MAX_ARGS at hle hi
    omega

/-- On the line that holds only a newline `parse_line` returns 0 through
shell.cpp:47, before the store of the sentinel, and slot 0 of `argv` still
holds what it held before the call; `main` does not read `argv` then. -/
theorem parse_line_newline_only :
    (parse_line ['\n'] junk).map (fun r => (r.argc, r.argv r.argc)) = some (0, some 0) := by
  decide

/-! ## The driver, one transition at a time -/

theorem main_step_wait (s : State) (pid : Nat) (r : WaitResult) (hs : s.ctl = Ctl.WAIT pid) :
    main_step s (Event.wait r) = some (wait_step s pid r) := by
  unfold main_step
  rw [hs]

theorem main_step_eof (s : State) (stack : Argv) (os : Os) (hs : s.ctl = Ctl.READ) :
    main_step s (Event.line none stack os) =
      some { s with trace := s.trace ++ [Act.stdout ['\n']], ctl := Ctl.TERMINATED 0 } := by
  unfold main_step
  rw [hs]
  rfl

theorem main_step_terminated (s : State) (c : Nat) (e : Event)
    (hs : s.ctl = Ctl.TERMINATED c) : main_step s e = none := by
  unfold main_step
  rw [hs]

theorem dispatch_tokens_exit (s : State) (rest : List (List Char)) (os : Os) :
    dispatch_tokens s ("exit".toList :: rest) os = { s with ctl := Ctl.TERMINATED 0 } := by
  unfold dispatch_tokens
  exact if_pos rfl

theorem dispatch_tokens_cd (s : State) (rest : List (List Char)) (os : Os) :
    dispatch_tokens s ("cd".toList :: rest) os =
      match os.chdir with
      | some cwd =>
        { s with proc := { s.proc with cwd := cwd },
                 trace := s.trace ++ [Act.chdir (cd_target rest s.proc.home) true],
                 ctl := Ctl.PROMPT }
      | none =>
        { s with trace := s.trace ++
                   [Act.chdir (cd_target rest s.proc.home) false, Act.perror "cd".toList],
                 ctl := Ctl.PROMPT } := by
  unfold dispatch_tokens
  exact (if_neg (by decide)).trans (if_pos rfl)

theorem dispatch_tokens_external (s : State) (t0 : List Char) (rest : List (List Char))
    (os : Os) (h1 : t0 ≠ "exit".toList) (h2 : t0 ≠ "cd".toList) :
    dispatch_tokens s (t0 :: rest) os =
      match os.fork with
      | none =>
        { s with trace := s.trace ++ [Act.fork none, Act.perror "fork".toList],
                 ctl := Ctl.PROMPT }
      | some pid =>
        { s with
          trace := s.trace ++ [Act.fork (some pid),
            Act.child pid (child_main s.proc t0 ((t0 :: rest).take (MAX_ARGS - 1)) os.exec_ok)],
          children := pid :: s.children,
          ctl := Ctl.WAIT pid } := by
  unfold dispatch_tokens
  exact (if_neg h1).trans (if_neg h2)

/-- Where a dispatch that does not start with `exit` leaves the driver. -/
theorem dispatch_tokens_continues (s : State) (toks : List (List Char)) (os : Os)
    (h : toks.head? ≠ some "exit".toList) :
    ((dispatch_tokens s toks os).ctl = Ctl.PROMPT ∨
      ∃ pid, os.fork = some pid ∧ (dispatch_tokens s toks os).ctl = Ctl.WAIT pid ∧
        (dispatch_tokens s toks os).proc = s.proc) ∧
    (os.chdir = none → (dispatch_tokens s toks os).proc = s.proc) ∧
    (toks.head? ≠ some "cd".toList → (dispatch_tokens s toks os).proc = s.proc) := by
  cases toks with
  | nil => exact ⟨Or.inl rfl, fun _ => rfl, fun _ => rfl⟩
  | cons t0 rest =>
    have h1 : t0 ≠ "exit".toList := fun e => h (by rw [e]; rfl)
    by_cases h2 : t0 = "cd".toList
    · subst h2
      rw [dispatch_tokens_cd]
      cases hcd : os.chdir with
      | none => exact ⟨Or.inl rfl, fun _ => rfl, fun _ => rfl⟩
      | some cwd =>
        exact ⟨Or.inl rfl, fun hn => Option.noConfusion hn, fun hn => absurd rfl hn⟩
    · rw [dispatch_tokens_external s t0 rest os h1 h2]
      cases hf : os.fork with
      | none => exact ⟨Or.inl rfl, fun _ => rfl, fun _ => rfl⟩
      | some pid => exact ⟨Or.inr ⟨pid, rfl, rfl, rfl⟩, fun _ => rfl, fun _ => rfl⟩

theorem dispatch_tokens_terminated (s : State) (toks : List (List Char)) (os : Os) :
    (∃ c, (dispatch_tokens s toks os).ctl = Ctl.TERMINATED c) ↔
      toks.head? = some "exit".toList := by
  constructor
  · rintro ⟨c, hc⟩
    by_contra hne
    rcases (dispatch_tokens_continues s toks os hne).1 with h | ⟨pid, _, h, _⟩
    · rw [h] at hc
      exact Ctl.noConfusion hc
    · rw [h] at hc
      exact Ctl.noConfusion hc
  · intro h
    cases toks with
    | nil => exact Option.noConfusion h
    | cons t0 rest =>
      have : t0 = "exit".toList := Option.some.inj h
      subst this
      rw [dispatch_tokens_exit]
      exact ⟨0, rfl⟩

/-- The wait loop leaves for the prompt after any finite number of
interruptions, whatever the final return of `waitpid`. -/
theorem wait_run (k : Nat) : ∀ (s : State) (pid : Nat) (r : WaitResult),
    s.ctl = Ctl.WAIT pid → r ≠ WaitResult.EINTR →
    ∃ t, main_run s (List.replicate k (Event.wait WaitResult.EINTR) ++ [Event.wait r]) = some t ∧
      t.ctl = Ctl.PROMPT ∧ t.proc = s.proc := by
  induction k with
  | zero =>
    intro s pid r hs hr
    simp only [List.replicate_zero, List.nil_append, main_run]
    rw [main_step_wait s pid r hs]
    refine ⟨wait_step s pid r, rfl, ?_, ?_⟩
    · cases r with
      | EINTR => exact absurd rfl hr
      | failed => rfl
      | reaped st => rfl
    · cases r <;> rfl
  | succ k ih =>
    intro s pid r hs hr
    simp only [List.replicate_succ, List.cons_append, main_run]
    rw [main_step_wait s pid WaitResult.EINTR hs]
    simp only []
    obtain ⟨t, ht1, ht2, ht3⟩ := ih (wait_step s pid WaitResult.EINTR) pid r hs hr
    exact ⟨t, ht1, ht2, ht3⟩

/-! ## The builtins and the error paths -/

/-- C4: at READ, a line whose first token is `exit` takes the driver to
TERMINATED with exit code 0, whatever tokens follow; the process state, the
children and the trace are those before the line (no child was created), and
from the terminated state no event is taken (no later line is read). -/
theorem C4_exit_terminates (s : State) (line : List Char) (stack : Argv) (os : Os)
    (hs : s.ctl = Ctl.READ) (h : (runs (line_text line)).head? = some "exit".toList) :
    main_step s (Event.line (some line) stack os) = some { s with ctl := Ctl.TERMINATED 0 } ∧
    ∀ e, main_step { s with ctl := Ctl.TERMINATED 0 } e = none := by
  refine ⟨?_, fun e => main_step_terminated _ 0 e rfl⟩
  rw [main_step_line s line stack os hs]
  cases hr : runs (line_text line) with
  | nil =>
    rw [hr] at h
    exact Option.noConfusion h
  | cons t0 rest =>
    rw [hr] at h
    have : t0 = "exit".toList := Option.some.inj h
    subst this
    rw [dispatch_tokens_exit]

theorem C4_exit_terminates_witness :
    main_step { main_init proc0 with ctl := Ctl.READ }
        (Event.line (some "exit now\n".toList) junk os0) =
      some { main_init proc0 with ctl := Ctl.TERMINATED 0 } ∧
    ∀ e, main_step { main_init proc0 with ctl := Ctl.TERMINATED 0 } e = none :=
  C4_exit_terminates { main_init proc0 with ctl := Ctl.READ } "exit now\n".toList junk os0
    rfl (by decide)

/-- C5, as the code has it: `quit` is not a builtin. At READ, a line whose
first token is `quit` does not terminate the driver and leaves the process
state alone; it goes to the Process Launcher like any other program name: when
`fork` succeeds a child is created that calls `execvp` on `quit` with the
tokens of the line as arguments and the driver is at `waitpid` for it, and
when `fork` fails that is reported and the driver is back at PROMPT. -/
theorem C5_quit_falls_through (s : State) (line : List Char) (stack : Argv) (os : Os)
    (hs : s.ctl = Ctl.READ) (h : (runs (line_text line)).head? = some "quit".toList) :
    ∃ t, main_step s (Event.line (some line) stack os) = some t ∧
      (∀ c, t.ctl ≠ Ctl.TERMINATED c) ∧ t.proc = s.proc ∧
      (∀ pid, os.fork = some pid →
        t.ctl = Ctl.WAIT pid ∧ t.children = pid :: s.children ∧
        t.trace = s.trace ++ [Act.fork (some pid),
          Act.child pid (child_main s.proc "quit".toList
            ((runs (line_text line)).take (MAX_ARGS - 1)) os.exec_ok)]) ∧
      (os.fork = none →
        t.ctl = Ctl.PROMPT ∧ t.children = s.children ∧
        t.trace = s.trace ++ [Act.fork none, Act.perror "fork".toList]) := by
  refine ⟨_, main_step_line s line stack os hs, ?_⟩
  cases hr : runs (line_text line) with
  | nil =>
    rw [hr] at h
    exact Option.noConfusion h
  | cons t0 rest =>
    rw [hr] at h
    have ht0 : t0 = "quit".toList := Option.some.inj h
    subst ht0
    rw [dispatch_tokens_external s "quit".toList rest os (by decide) (by decide)]
    cases hf : os.fork with
    | none =>
      exact ⟨fun c hc => Ctl.noConfusion hc, rfl, fun pid hp => Option.noConfusion hp,
        fun _ => ⟨rfl, rfl, rfl⟩⟩
    | some pid =>
      refine ⟨fun c hc => Ctl.noConfusion hc, rfl, ?_, fun hn => Option.noConfusion hn⟩
      intro pid2 hp
      have : pid = pid2 := Option.some.inj hp
      subst this
      exact ⟨rfl, rfl, rfl⟩

theorem C5_quit_falls_through_witness :
    ∃ t, main_step { main_init proc0 with ctl := Ctl.READ }
        (Event.line (some "quit now\n".toList) junk os0) = some t ∧
      (∀ c, t.ctl ≠ Ctl.TERMINATED c) ∧ t.proc = (main_init proc0).proc ∧
      (∀ pid, os0.fork = some pid →
        t.ctl = Ctl.WAIT pid ∧ t.children = [pid] ∧
        t.trace = (main_init proc0).trace ++ [Act.fork (some pid),
          Act.child pid (child_main (main_init proc0).proc "quit".toList
            ((runs (line_text "quit now\n".toList)).take (MAX_ARGS - 1)) os0.exec_ok)]) ∧
      (os0.fork = none →
        t.ctl = Ctl.PROMPT ∧ t.children = [] ∧
        t.trace = (main_init proc0).trace ++ [Act.fork none, Act.perror "fork".toList]) :=
  C5_quit_falls_through { main_init proc0 with ctl := Ctl.READ } "quit now\n".toList junk os0
    rfl (by decide)

/-- C5 fails as stated: from a fresh session the line `quit` does not terminate
the driver. It forks, the child calls `execvp` on `quit`, and the driver is at
`waitpid`. -/
theorem C5_counterexample_quit_launched :
    (main_run (main_init proc0) [Event.getcwd true, Event.line (some "quit\n".toList) junk os0]).map
        (fun s => (s.ctl, s.children, s.trace.drop 2)) =
      some (Ctl.WAIT 7, [7], [Act.fork (some 7),
        Act.child 7 (child_main (main_init proc0).proc "quit".toList ["quit".toList] true)]) := by
  decide

/-- C6: at READ, on a line whose first token is `cd`, the driver calls `chdir`
on the second token when there is one, otherwise on the value of `HOME` when
it is set, otherwise on `.`; further tokens play no part. It creates no child
and goes to PROMPT; the working directory changes exactly when `chdir`
succeeds, and a failure is reported through `perror("cd")`. With no argument
and `HOME=/home/u` the target is `/home/u`. -/
theorem C6_cd_target (s : State) (line : List Char) (stack : Argv) (os : Os)
    (rest : List (List Char)) (hs : s.ctl = Ctl.READ)
    (h : runs (line_text line) = "cd".toList :: rest) :
    (∃ t, main_step s (Event.line (some line) stack os) = some t ∧
      t.ctl = Ctl.PROMPT ∧ t.children = s.children ∧
      ((∃ cwd, os.chdir = some cwd ∧ t.proc = { s.proc with cwd := cwd } ∧
          t.trace = s.trace ++ [Act.chdir (cd_target rest s.proc.home) true]) ∨
       (os.chdir = none ∧ t.proc = s.proc ∧
          t.trace = s.trace ++
            [Act.chdir (cd_target rest s.proc.home) false, Act.perror "cd".toList]))) ∧
    (∀ d more, rest = d :: more → cd_target rest s.proc.home = d) ∧
    (∀ hm, rest = [] → s.proc.home = some hm → cd_target rest s.proc.home = hm) ∧
    (rest = [] → s.proc.home = none → cd_target rest s.proc.home = ['.']) ∧
    (main_run (main_init proc0) [Event.getcwd true, Event.line (some "cd\n".toList) junk
        { chdir := some "/home/u".toList, fork := none, exec_ok := false }]).map
        (fun s => (s.ctl, s.proc.cwd, s.children, s.trace.drop 2)) =
      some (Ctl.PROMPT, "/home/u".toList, [], [Act.chdir "/home/u".toList true]) := by
  refine ⟨?_, ?_, ?_, ?_, by decide⟩
  · rw [main_step_line s line stack os hs, h, dispatch_tokens_cd]
    cases hcd : os.chdir with
    | none => exact ⟨_, rfl, rfl, rfl, Or.inr ⟨rfl, rfl, rfl⟩⟩
    | some cwd => exact ⟨_, rfl, rfl, rfl, Or.inl ⟨cwd, rfl, rfl, rfl⟩⟩
  · intro d more hr
    subst hr
    rfl
  · intro hm hr hh
    subst hr
    unfold cd_target
    rw [hh]
    rfl
  · intro hr hh
    subst hr
    unfold cd_target
    rw [hh]
    rfl

theorem C6_cd_target_witness :
    ∃ t, main_step { main_init proc0 with ctl := Ctl.READ }
        (Event.line (some "cd /etc extra\n".toList) junk os0) = some t ∧
      t.ctl = Ctl.PROMPT ∧ t.children = [] ∧
      ((∃ cwd, os0.chdir = some cwd ∧ t.proc = { (main_init proc0).proc with cwd := cwd } ∧
          t.trace = (main_init proc0).trace ++
            [Act.chdir (cd_target ["/etc".toList, "extra".toList] proc0.home) true]) ∨
       (os0.chdir = none ∧ t.proc = (main_init proc0).proc ∧
          t.trace = (main_init proc0).trace ++
            [Act.chdir (cd_target ["/etc".toList, "extra".toList] proc0.home) false,
              Act.perror "cd".toList])) :=
  (C6_cd_target { main_init proc0 with ctl := Ctl.READ } "cd /etc extra\n".toList junk os0
    ["/etc".toList, "extra".toList] rfl (by decide)).1

/-- C7: at READ, after a line that was read and whose first token is not
`exit`, the driver takes the step and is back at PROMPT, at once or, when a
child was created, after the wait loop, which leaves for PROMPT after any
number of interruptions whether `waitpid` then reaps the child (also one that
could not launch its program) or fails. A failed `chdir` and every path other
than `cd` leave the process state, working directory included, as it was. -/
theorem C7_errors_return_to_prompt (s : State) (line : List Char) (stack : Argv) (os : Os)
    (hs : s.ctl = Ctl.READ) (h : (runs (line_text line)).head? ≠ some "exit".toList) :
    ∃ t, main_step s (Event.line (some line) stack os) = some t ∧
      (t.ctl = Ctl.PROMPT ∨ ∃ pid, os.fork = some pid ∧ t.ctl = Ctl.WAIT pid) ∧
      (os.fork = none → t.ctl = Ctl.PROMPT) ∧
      (∀ pid, t.ctl = Ctl.WAIT pid → ∀ (k : Nat) (r : WaitResult), r ≠ WaitResult.EINTR →
        ∃ u, main_run t (List.replicate k (Event.wait WaitResult.EINTR) ++ [Event.wait r])
            = some u ∧ u.ctl = Ctl.PROMPT ∧ u.proc = s.proc) ∧
      (os.chdir = none → t.proc = s.proc) ∧
      ((runs (line_text line)).head? ≠ some "cd".toList → t.proc = s.proc) := by
  obtain ⟨h1, h2, h3⟩ := dispatch_tokens_continues s (runs (line_text line)) os h
  refine ⟨_, main_step_line s line stack os hs, ?_, ?_, ?_, h2, h3⟩
  · rcases h1 with h1 | ⟨pid, hf, hw, _⟩
    · exact Or.inl h1
    · exact Or.inr ⟨pid, hf, hw⟩
  · intro hf
    rcases h1 with h1 | ⟨pid, hf2, _, _⟩
    · exact h1
    · rw [hf] at hf2
      exact Option.noConfusion hf2
  · intro pid hw k r hr
    obtain ⟨u, hu1, hu2, hu3⟩ := wait_run k _ pid r hw hr
    refine ⟨u, hu1, hu2, ?_⟩
    rw [hu3]
    rcases h1 with h1 | ⟨_, _, _, hp⟩
    · rw [h1] at hw
      exact Ctl.noConfusion hw
    · exact hp

theorem C7_errors_return_to_prompt_witness :
    ∃ t, main_step { main_init proc0 with ctl := Ctl.READ }
        (Event.line (some "cd /nonexistent\n".toList) junk os0) = some t ∧
      (t.ctl = Ctl.PROMPT ∨ ∃ pid, os0.fork = some pid ∧ t.ctl = Ctl.WAIT pid) ∧
      (os0.fork = none → t.ctl = Ctl.PROMPT) ∧
      (∀ pid, t.ctl = Ctl.WAIT pid → ∀ (k : Nat) (r : WaitResult), r ≠ WaitResult.EINTR →
        ∃ u, main_run t (List.replicate k (Event.wait WaitResult.EINTR) ++ [Event.wait r])
            = some u ∧ u.ctl = Ctl.PROMPT ∧ u.proc = (main_init proc0).proc) ∧
      (os0.chdir = none → t.proc = (main_init proc0).proc) ∧
      ((runs (line_text "cd /nonexistent\n".toList)).head? ≠ some "cd".toList →
        t.proc = (main_init proc0).proc) :=
  C7_errors_return_to_prompt { main_init proc0 with ctl := Ctl.READ }
    "cd /nonexistent\n".toList junk os0 rfl (by decide)

/-! ## Sessions -/

theorem main_step_sigint (s : State) (h : session_inv s) (hs : ∀ c, s.ctl ≠ Ctl.TERMINATED c) :
    main_step s Event.sigint = some { s with trace := s.trace ++ [Act.stdout ['\n']] } := by
  rw [← session_inv_sigint s h]
  unfold main_step
  cases hc : s.ctl with
  | PROMPT => rfl
  | READ => rfl
  | WAIT pid => rfl
  | TERMINATED c => exact absurd hc (hs c)
  | KILLED => exact absurd hc h.2.1

theorem dispatch_tokens_wait (s : State) (toks : List (List Char)) (os : Os) (pid : Nat)
    (h : (dispatch_tokens s toks os).ctl = Ctl.WAIT pid) :
    ∃ c, dispatch_tokens s toks os =
        { s with trace := s.trace ++ [Act.fork (some pid), Act.child pid c],
                 children := pid :: s.children, ctl := Ctl.WAIT pid } ∧
      c.proc = { s.proc with sigint := Disposition.SIG_DFL } := by
  cases toks with
  | nil => exact Ctl.noConfusion h
  | cons t0 rest =>
    by_cases h1 : t0 = "exit".toList
    · subst h1
      rw [dispatch_tokens_exit] at h
      exact Ctl.noConfusion h
    · by_cases h2 : t0 = "cd".toList
      · subst h2
        rw [dispatch_tokens_cd] at h
        cases hcd : os.chdir with
        | none =>
          rw [hcd] at h
          exact Ctl.noConfusion h
        | some cwd =>
          rw [hcd] at h
          exact Ctl.noConfusion h
      · rw [dispatch_tokens_external s t0 rest os h1 h2] at h ⊢
        cases hf : os.fork with
        | none =>
          rw [hf] at h
          exact Ctl.noConfusion h
        | some pid2 =>
          rw [hf] at h
          have : pid2 = pid := Ctl.WAIT.inj h
          subst this
          exact ⟨_, rfl, child_main_sigint _ _ _ _⟩

theorem stdout_of_append_stdout (trace : List Act) (w : List Char) :
    (stdout_of (trace ++ [Act.stdout w])).getLast? = some w := by
  unfold stdout_of
  rw [List.filterMap_append]
  simp

/-- C8, as the code has it: in every state a session reaches there is at most
one child; at `waitpid` it is the child waited for and at every other program
point there is none. At `waitpid(pid)` every return is taken: an interruption
keeps the driver waiting for the same child, and the driver leaves for PROMPT
only when `waitpid` returned the status of that child, or when it failed for
another reason, which is reported and leaves no status collected. Nothing but
a return of `waitpid` or a delivery of the interrupt signal happens there, and
the signal leaves the driver waiting. -/
theorem C8_one_child_at_a_time (p : Proc) (evs : List Event) (s : State)
    (hrun : main_run (main_init p) evs = some s) :
    s.children.length ≤ 1 ∧
    (∀ pid, s.ctl = Ctl.WAIT pid → s.children = [pid]) ∧
    ((∀ pid, s.ctl ≠ Ctl.WAIT pid) → s.children = []) ∧
    (∀ pid, s.ctl = Ctl.WAIT pid → ∀ r, ∃ t, main_step s (Event.wait r) = some t ∧
      (r = WaitResult.EINTR → t.ctl = Ctl.WAIT pid ∧ t.children = s.children ∧
        t.trace = s.trace ++ [Act.waitpid pid WaitResult.EINTR]) ∧
      (t.ctl = Ctl.PROMPT →
        (∃ st, r = WaitResult.reaped st ∧
          t.trace = s.trace ++ [Act.waitpid pid (WaitResult.reaped st)]) ∨
        (r = WaitResult.failed ∧
          t.trace = s.trace ++
            [Act.waitpid pid WaitResult.failed, Act.perror "waitpid".toList]))) ∧
    (∀ pid e t, s.ctl = Ctl.WAIT pid → main_step s e = some t →
      (∃ r, e = Event.wait r) ∨ (e = Event.sigint ∧ t.ctl = Ctl.WAIT pid)) := by
  have hinv := session_inv_run p evs s hrun
  have hw := hinv.2.2.2.2.2.1
  have ho := hinv.2.2.2.2.2.2
  have hlen : s.children.length ≤ 1 := by
    by_cases hc : ∃ pid, s.ctl = Ctl.WAIT pid
    · obtain ⟨pid, hp⟩ := hc
      rw [hw pid hp]
      exact Nat.le_refl _
    · rw [ho (fun pid hp => hc ⟨pid, hp⟩)]
      exact Nat.zero_le _
  refine ⟨hlen, hw, ho, ?_, ?_⟩
  · intro pid hp r
    refine ⟨wait_step s pid r, main_step_wait s pid r hp, ?_, ?_⟩
    · intro hr
      subst hr
      exact ⟨hp, rfl, rfl⟩
    · intro ht
      cases r with
      | EINTR =>
        have : (wait_step s pid WaitResult.EINTR).ctl = s.ctl := rfl
        rw [this, hp] at ht
        exact Ctl.noConfusion ht
      | failed => exact Or.inr ⟨rfl, rfl⟩
      | reaped st => exact Or.inl ⟨st, rfl, rfl⟩
  · intro pid e t hp hstep
    cases e with
    | getcwd ok => unfold main_step at hstep; rw [hp] at hstep; exact Option.noConfusion hstep
    | line got stack os =>
      unfold main_step at hstep; rw [hp] at hstep; exact Option.noConfusion hstep
    | wait r => exact Or.inl ⟨r, rfl⟩
    | sigint =>
      rw [main_step_sigint s hinv (fun c hc => by rw [hp] at hc; exact Ctl.noConfusion hc)]
        at hstep
      have := Option.some.inj hstep
      subst this
      exact Or.inr ⟨rfl, hp⟩

theorem C8_one_child_at_a_time_witness :
    main_run (main_init proc0) [Event.getcwd true, Event.line (some "ls\n".toList) junk os0]
      = some state_waiting ∧
    state_waiting.children.length ≤ 1 ∧
    ∀ pid, state_waiting.ctl = Ctl.WAIT pid → state_waiting.children = [pid] :=
  ⟨by decide,
   (C8_one_child_at_a_time proc0
      [Event.getcwd true, Event.line (some "ls\n".toList) junk os0]
      state_waiting (by decide)).1,
   (C8_one_child_at_a_time proc0
      [Event.getcwd true, Event.line (some "ls\n".toList) junk os0]
      state_waiting (by decide)).2.1⟩

/-- C8 fails as stated: after `ls` the child 7 is created, `waitpid` fails for
a reason other than an interruption, and the driver is at PROMPT although no
status of child 7 was collected: the trace holds no successful `waitpid`. -/
theorem C8_counterexample_failed_wait :
    (main_run (main_init proc0) [Event.getcwd true, Event.line (some "ls\n".toList) junk os0,
        Event.wait WaitResult.failed]).map (fun s => (s.ctl, s.trace.drop 2)) =
      some (Ctl.PROMPT, [Act.fork (some 7),
        Act.child 7 (child_main (main_init proc0).proc "ls".toList ["ls".toList] true),
        Act.waitpid 7 WaitResult.failed, Act.perror "waitpid".toList]) := by
  decide

/-- C9: in every state a session reaches, the session was not killed and, if
it has terminated, its exit code is 0. A step terminates the session exactly
when it is taken at READ and either `getline` reported end of stream or an
error, or the line read has `exit` as first token. On end of stream the newline
is the last write to standard output. At `waitpid`, a child status of any value
takes the driver to PROMPT with the process state unchanged. -/
theorem C9_exit_code_zero (p : Proc) (evs : List Event) (s : State)
    (hrun : main_run (main_init p) evs = some s) :
    (∀ c, s.ctl = Ctl.TERMINATED c → c = 0) ∧
    s.ctl ≠ Ctl.KILLED ∧
    (∀ e t, main_step s e = some t →
      ((∃ c, t.ctl = Ctl.TERMINATED c) ↔
        s.ctl = Ctl.READ ∧
          ((∃ stack os, e = Event.line none stack os) ∨
           ∃ l stack os, e = Event.line (some l) stack os ∧
             (runs (line_text l)).head? = some "exit".toList))) ∧
    (s.ctl = Ctl.READ → ∀ stack os, ∃ t, main_step s (Event.line none stack os) = some t ∧
      t.ctl = Ctl.TERMINATED 0 ∧ t.trace = s.trace ++ [Act.stdout ['\n']] ∧
      (stdout_of t.trace).getLast? = some ['\n']) ∧
    (∀ pid, s.ctl = Ctl.WAIT pid → ∀ st, ∃ t,
      main_step s (Event.wait (WaitResult.reaped st)) = some t ∧
      t.ctl = Ctl.PROMPT ∧ t.proc = s.proc) := by
  have hinv := session_inv_run p evs s hrun
  refine ⟨hinv.2.2.1, hinv.2.1, ?_, ?_, ?_⟩
  · intro e t hstep
    cases e with
    | getcwd ok =>
      unfold main_step at hstep
      cases hc : s.ctl with
      | PROMPT =>
        rw [hc] at hstep
        have := Option.some.inj hstep
        subst this
        constructor
        · rintro ⟨c, h⟩
          exact Ctl.noConfusion h
        · rintro ⟨h, _⟩
          exact Ctl.noConfusion h
      | READ => rw [hc] at hstep; exact Option.noConfusion hstep
      | WAIT pid => rw [hc] at hstep; exact Option.noConfusion hstep
      | TERMINATED c => rw [hc] at hstep; exact Option.noConfusion hstep
      | KILLED => rw [hc] at hstep; exact Option.noConfusion hstep
    | line got stack os =>
      cases hc : s.ctl with
      | READ =>
        cases got with
        | none =>
          rw [main_step_eof s stack os hc] at hstep
          have := Option.some.inj hstep
          subst this
          exact ⟨fun _ => ⟨rfl, Or.inl ⟨stack, os, rfl⟩⟩, fun _ => ⟨0, rfl⟩⟩
        | some l =>
          rw [main_step_line s l stack os hc] at hstep
          have := Option.some.inj hstep
          subst this
          rw [dispatch_tokens_terminated]
          constructor
          · intro h
            exact ⟨rfl, Or.inr ⟨l, stack, os, rfl, h⟩⟩
          · rintro ⟨_, h | ⟨l2, stack2, os2, he, h⟩⟩
            · obtain ⟨stack2, os2, he⟩ := h
              exact Event.noConfusion he (fun h1 _ _ => Option.noConfusion h1)
            · have hl : l = l2 := Event.noConfusion he (fun h1 _ _ => Option.some.inj h1)
              rw [hl]
              exact h
      | PROMPT => unfold main_step at hstep; rw [hc] at hstep; exact Option.noConfusion hstep
      | WAIT pid => unfold main_step at hstep; rw [hc] at hstep; exact Option.noConfusion hstep
      | TERMINATED c =>
        unfold main_step at hstep; rw [hc] at hstep; exact Option.noConfusion hstep
      | KILLED => unfold main_step at hstep; rw [hc] at hstep; exact Option.noConfusion hstep
    | wait r =>
      cases hc : s.ctl with
      | WAIT pid =>
        rw [main_step_wait s pid r hc] at hstep
        have := Option.some.inj hstep
        subst this
        constructor
        · rintro ⟨c, h⟩
          cases r with
          | EINTR =>
            have : (wait_step s pid WaitResult.EINTR).ctl = s.ctl := rfl
            rw [this, hc] at h
            exact Ctl.noConfusion h
          | failed => exact Ctl.noConfusion h
          | reaped st => exact Ctl.noConfusion h
        · rintro ⟨h, _⟩
          exact Ctl.noConfusion h
      | PROMPT => unfold main_step at hstep; rw [hc] at hstep; exact Option.noConfusion hstep
      | READ => unfold main_step at hstep; rw [hc] at hstep; exact Option.noConfusion hstep
      | TERMINATED c =>
        unfold main_step at hstep; rw [hc] at hstep; exact Option.noConfusion hstep
      | KILLED => unfold main_step at hstep; rw [hc] at hstep; exact Option.noConfusion hstep
    | sigint =>
      by_cases hterm : ∃ c, s.ctl = Ctl.TERMINATED c
      · obtain ⟨c, hc⟩ := hterm
        rw [main_step_terminated s c _ hc] at hstep
        exact Option.noConfusion hstep
      · rw [main_step_sigint s hinv (fun c hc => hterm ⟨c, hc⟩)] at hstep
        have := Option.some.inj hstep
        subst this
        constructor
        · rintro ⟨c, h⟩
          exact absurd ⟨c, h⟩ hterm
        · rintro ⟨_, h | h⟩
          · obtain ⟨stack2, os2, he⟩ := h
            exact Event.noConfusion he
          · obtain ⟨l2, stack2, os2, he, _⟩ := h
            exact Event.noConfusion he
  · intro hc stack os
    exact ⟨_, main_step_eof s stack os hc, rfl, rfl, stdout_of_append_stdout _ _⟩
  · intro pid hc st
    exact ⟨_, main_step_wait s pid _ hc, rfl, rfl⟩

theorem C9_exit_code_zero_witness :
    main_run (main_init proc0) [Event.getcwd true, Event.line (some "ls\n".toList) junk os0]
      = some state_waiting ∧
    ∀ st, ∃ t, main_step state_waiting (Event.wait (WaitResult.reaped st)) = some t ∧
      t.ctl = Ctl.PROMPT ∧ t.proc = state_waiting.proc :=
  ⟨by decide,
   (C9_exit_code_zero proc0 [Event.getcwd true, Event.line (some "ls\n".toList) junk os0]
      state_waiting (by decide)).2.2.2.2 7 rfl⟩

/-- C10: the start of `main` installs the handler `on_sigint`, which only
writes one newline, and in every state a session reaches the disposition of
the interrupt signal is that handler (never the default), `sigaction` was
called exactly once, and the session was not killed; delivery of the signal in
any state before termination appends one newline to standard output and
changes nothing else. Every child called `execvp` with the default disposition,
and the process state of a child at `execvp` is that of the interpreter at the
`fork` with only the disposition changed. -/
theorem C10_signal_policy (p : Proc) (evs : List Event) (s : State)
    (hrun : main_run (main_init p) evs = some s) :
    (main_init p).proc.sigint = Disposition.handler_on_sigint ∧
    (main_init p).trace = [Act.sigaction_sigint] ∧
    on_sigint = [Act.stdout ['\n']] ∧
    s.proc.sigint = Disposition.handler_on_sigint ∧
    s.trace.count Act.sigaction_sigint = 1 ∧
    s.ctl ≠ Ctl.KILLED ∧
    ((∀ c, s.ctl ≠ Ctl.TERMINATED c) →
      main_step s Event.sigint = some { s with trace := s.trace ++ [Act.stdout ['\n']] }) ∧
    (∀ pid c, Act.child pid c ∈ s.trace → c.proc.sigint = Disposition.SIG_DFL) ∧
    (∀ l stack os pid t, main_step s (Event.line (some l) stack os) = some t →
      t.ctl = Ctl.WAIT pid →
      ∃ c, t.trace = s.trace ++ [Act.fork (some pid), Act.child pid c] ∧
        c.proc = { s.proc with sigint := Disposition.SIG_DFL }) := by
  have hinv := session_inv_run p evs s hrun
  refine ⟨rfl, rfl, rfl, hinv.1, hinv.2.2.2.1, hinv.2.1, main_step_sigint s hinv,
    hinv.2.2.2.2.1, ?_⟩
  intro l stack os pid t hstep ht
  cases hc : s.ctl with
  | READ =>
    rw [main_step_line s l stack os hc] at hstep
    have := Option.some.inj hstep
    subst this
    obtain ⟨c, hc1, hc2⟩ := dispatch_tokens_wait s _ os pid ht
    refine ⟨c, ?_, hc2⟩
    rw [hc1]
  | PROMPT => unfold main_step at hstep; rw [hc] at hstep; exact Option.noConfusion hstep
  | WAIT pid => unfold main_step at hstep; rw [hc] at hstep; exact Option.noConfusion hstep
  | TERMINATED c => unfold main_step at hstep; rw [hc] at hstep; exact Option.noConfusion hstep
  | KILLED => unfold main_step at hstep; rw [hc] at hstep; exact Option.noConfusion hstep

theorem C10_signal_policy_witness :
    main_run (main_init proc0) [Event.getcwd true, Event.line (some "ls\n".toList) junk os0]
      = some state_waiting ∧
    state_waiting.proc.sigint = Disposition.handler_on_sigint ∧
    main_step state_waiting Event.sigint =
      some { state_waiting with trace := state_waiting.trace ++ [Act.stdout ['\n']] } :=
  ⟨by decide,
   (C10_signal_policy proc0 [Event.getcwd true, Event.line (some "ls\n".toList) junk os0]
      state_waiting (by decide)).2.2.2.1,
   (C10_signal_policy proc0 [Event.getcwd true, Event.line (some "ls\n".toList) junk os0]
      state_waiting (by decide)).2.2.2.2.2.2.1 (fun c hc => Ctl.noConfusion hc)⟩

end SilvrShell
